import Mathlib

/-!
Shallow embedding of the `datastore` package: an append-only, log-structured
key-value store with segmented on-disk files, an in-memory hash index, crash
recovery on open, and compaction (`Merge`).

Modelling conventions:
* byte strings (Go `string` / `[]byte`) are `List Nat`, one byte per element;
* file contents are byte lists, the directory is a list of named files;
* machine integers (`uint32`, `int64`) are `Nat` / `Int`, with field values
  truncated by `% 2 ^ 32` exactly where the code writes 32-bit fields;
* fallible operations return `Except DbError` or pair the new state with an
  `Option DbError` reply, mirroring the Go error returns;
* the single-writer loop is embedded as one step per consumed message
  (`writeStep`), and the worker-pool `Get` as the queue-closed check followed
  by the worker body `Db.get`; scheduling itself is not modelled.
-/

namespace Datastore

/-- Byte strings; each element is one byte (values below 256 in real files). -/
abbrev Bytes := List Nat

/-- A key/value pair as handed to `Put` (Go type `entry`). -/
abbrev Rec := Bytes × Bytes

/-- Error kinds of the store: the Go sentinel errors plus the error kinds the
spec assigns to the record codec (section 7 of the spec). -/
inductive DbError where
  | notFound            -- `ErrNotFound`
  | dbClosed            -- `ErrDbClosed`
  | workerQueueClosed   -- `ErrWorkerQueueIsClosed`
  | putFailed           -- write loop reply: "failed to put ..."
  | corruptedFile       -- `recover`: "corrupted file"
  | corruptRecord       -- codec decode failure (spec section 4.1)
  | encodeTooLarge      -- codec encode rejection (spec section 4.1)
  | badSegmentName      -- `recoverSegmentIndex`: `strconv.Atoi` failure
  | ioError             -- other filesystem failures
  | runtimeFault        -- Go panic (e.g. `Uint32` applied to a short header)
  deriving DecidableEq, Repr

/-- An error of the spec's `Closed` kind: the store rejected the operation
because `Close` already ran (either sentinel, `ErrDbClosed` from the store or
`ErrWorkerQueueIsClosed` from the read worker queue). -/
def DbError.closedKind : DbError → Bool
  | .dbClosed => true
  | .workerQueueClosed => true
  | _ => false

/-- Little-endian 4-byte encoding of `n % 2 ^ 32`
(Go `binary.LittleEndian.PutUint32`). -/
def le32 (n : Nat) : Bytes :=
  [n % 256, n / 256 % 256, n / 256 ^ 2 % 256, n / 256 ^ 3 % 256]

/-- Value of four little-endian bytes (Go `binary.LittleEndian.Uint32`). -/
def le32val (b0 b1 b2 b3 : Nat) : Nat :=
  b0 + 256 * b1 + 256 ^ 2 * b2 + 256 ^ 3 * b3

/-- Read a 4-byte little-endian field from the front of a byte list, returning
the value and the remaining bytes; `none` when fewer than 4 bytes remain. -/
def readLe32 : Bytes → Option (Nat × Bytes)
  | b0 :: b1 :: b2 :: b3 :: rest => some (le32val b0 b1 b2 b3, rest)
  | _ => none

/-- Modelled from the spec: the file `entry.go` (with `entry.Encode`,
`entry.Decode` and `readValue`) is absent from the sources, so the record
layout is taken from spec section 3: `total_size (u32 LE) | key_len (u32 LE) |
key | value_len (u32 LE) | value`, with
`total_size = 4 + 4 + key_len + 4 + value_len`. -/
def encodeRecord (k v : Bytes) : Bytes :=
  le32 (12 + k.length + v.length) ++ le32 k.length ++ k ++ le32 v.length ++ v

/-- Total on-disk size of the record for `(k, v)`. -/
def recSize (r : Rec) : Nat := 12 + r.1.length + r.2.length

/-- The pair `(k, v)` fits the record format: `total_size` fits in a `u32`.
This is the bound of spec section 8, property 6. -/
def sizeOk (k v : Bytes) : Prop := k.length + v.length < 2 ^ 32 - 12

instance (k v : Bytes) : Decidable (sizeOk k v) := by
  unfold sizeOk; infer_instance

/-- Modelled from the spec: `entry.Encode` (file absent from the sources).
Spec section 4.1: `encode` rejects keys or values too large for the `u32`
fields; the rejection bound is the encodable bound of section 8, property 6
(`|k| + |v| < 2 ^ 32 - 12`), which subsumes the per-field bounds. -/
def encode (k v : Bytes) : Except DbError Bytes :=
  if sizeOk k v then .ok (encodeRecord k v)
  else .error .encodeTooLarge

/-- Modelled from the spec: `entry.Decode` (file absent from the sources).
Spec section 4.1: `decode` fails with `CorruptRecord` if the declared
`total_size` does not match the buffer length or the internal length fields
are inconsistent. -/
def decodeRecord (data : Bytes) : Except DbError Rec :=
  match readLe32 data with
  | none => .error .corruptRecord
  | some (total, r1) =>
    if total ≠ data.length then .error .corruptRecord else
    match readLe32 r1 with
    | none => .error .corruptRecord
    | some (klen, r2) =>
      if r2.length < klen + 4 then .error .corruptRecord else
      match readLe32 (r2.drop klen) with
      | none => .error .corruptRecord
      | some (vlen, r3) =>
        if total ≠ 12 + klen + vlen then .error .corruptRecord
        else .ok (r2.take klen, r3)

/-- Modelled from the spec: `readValue` (file absent from the sources), used
by `Db.get` after seeking to the indexed offset: it reads the record that
starts at byte `off` of the segment contents and returns its value (spec
section 4.5, step 4). A short file yields a read error. -/
def readValueAt (content : Bytes) (off : Nat) : Except DbError Bytes :=
  let rest := content.drop off
  match readLe32 rest with
  | none => .error .ioError
  | some (total, _) =>
    if rest.length < total then .error .ioError
    else match decodeRecord (rest.take total) with
      | .ok r => .ok r.2
      | .error e => .error e

/-! ### Segment file names (Go `recoverSegmentIndex` helpers) -/

/-- The segment filename extension (Go `DbSegmentExt = ".seg"`). -/
def segExt : List Char := ['.', 's', 'e', 'g']

/-- Go `filepath.Ext`: the suffix beginning at the final dot of the name,
empty when the name has no dot. -/
def extOf (name : List Char) : List Char :=
  if (name.reverse.takeWhile (fun c => c ≠ '.')).length = name.length then []
  else '.' :: (name.reverse.takeWhile (fun c => c ≠ '.')).reverse

/-- Go `strings.TrimSuffix`: drop the suffix when present, else return the
name unchanged. -/
def trimSuffixL (name suf : List Char) : List Char :=
  if suf.length ≤ name.length ∧ name.drop (name.length - suf.length) = suf then
    name.take (name.length - suf.length)
  else name

/-- Numeric value of a decimal digit string, most significant digit first. -/
def digitsVal (cs : List Char) : Nat :=
  cs.foldl (fun a c => 10 * a + (c.toNat - 48)) 0

/-- Every character is a decimal digit (`'0'`..`'9'`). -/
def allDigits (cs : List Char) : Bool :=
  cs.all (fun c => decide (48 ≤ c.toNat) && decide (c.toNat ≤ 57))

/-- Go `strconv.Atoi`: an optional sign followed by a nonempty run of decimal
digits, with the 64-bit `int` range check; `none` models a parse error. -/
def atoiVal (cs : List Char) : Option Int :=
  match cs with
  | [] => none
  | c :: rest =>
    if c = '-' then
      if rest.isEmpty ∨ ¬ allDigits rest then none
      else if digitsVal rest ≤ 2 ^ 63 then some (-(digitsVal rest : Int)) else none
    else if c = '+' then
      if rest.isEmpty ∨ ¬ allDigits rest then none
      else if digitsVal rest ≤ 2 ^ 63 - 1 then some (digitsVal rest : Int) else none
    else
      if ¬ allDigits (c :: rest) then none
      else if digitsVal (c :: rest) ≤ 2 ^ 63 - 1 then some (digitsVal (c :: rest) : Int)
      else none

/-- Go `Db.recoverSegmentIndex`, folded over the directory listing: files with
the segment extension must have stems that `strconv.Atoi` parses, and the
running maximum of the parsed ids starts at `-1`. Files without the segment
extension are skipped. -/
def recoverSegmentIndexAux : List (List Char) → Int → Except DbError Int
  | [], m => .ok m
  | nm :: rest, m =>
    if extOf nm = segExt then
      match atoiVal (trimSuffixL nm segExt) with
      | none => .error .badSegmentName
      | some idx => recoverSegmentIndexAux rest (if m < idx then idx else m)
    else recoverSegmentIndexAux rest m

/-- Go `Db.recoverSegmentIndex` on a directory listing. -/
def recoverSegmentIndex (names : List (List Char)) : Except DbError Int :=
  recoverSegmentIndexAux names (-1)

/-! ### The store state and its operations -/

/-- The in-memory hash index (Go `hashIndex`): key to
`(segment id, byte offset)`. The Go map is modelled as an association list
with in-place overwrite, so iteration order is insertion order (a particular
refinement of Go's unspecified map order). -/
abbrev HashIndex := List (Bytes × Nat × Nat)

/-- Go `db.index[key] = hashEntry{segmentIndex, segmentOffset}`. -/
def idxSet (idx : HashIndex) (k : Bytes) (e : Nat × Nat) : HashIndex :=
  match idx with
  | [] => [(k, e)]
  | (k2, e2) :: rest => if k2 = k then (k, e) :: rest else (k2, e2) :: idxSet rest k e

/-- Go `db.getIndex`: map lookup. -/
def idxGet (idx : HashIndex) (k : Bytes) : Option (Nat × Nat) :=
  match idx with
  | [] => none
  | (k2, e2) :: rest => if k2 = k then some e2 else idxGet rest k

/-- The store state (Go struct `Db`). `files` holds the contents of the
segment files `0.seg .. segmentIndex.seg`; the writer's file handle is the
entry at position `segmentIndex`. `wqClosed` is the worker queue's own
`isClosed` flag (Go `workerQueue.isClosed`), set by `Db.Close`. -/
structure Db where
  files : List Bytes
  segmentOffset : Nat
  segmentIndex : Nat
  maxSegmentSize : Nat
  index : HashIndex
  isClosed : Bool
  wqClosed : Bool
  deriving DecidableEq, Repr

/-- Go `Db.get` (the body run by a pool worker): closed check, index lookup
under the read lock, open the segment read-only, seek to the offset, read the
value. -/
def getDb (db : Db) (k : Bytes) : Except DbError Bytes :=
  if db.isClosed then .error .dbClosed
  else match idxGet db.index k with
    | none => .error .notFound
    | some (i, off) =>
      match db.files.get? i with
      | none => .error .ioError
      | some content => readValueAt content off

/-- Go `Db.Get` = `workerQueue.Do`: fails with `ErrWorkerQueueIsClosed` when
the queue is closed, otherwise a free worker executes `Db.get`. -/
def Get (db : Db) (k : Bytes) : Except DbError Bytes :=
  if db.wqClosed then .error .workerQueueClosed else getDb db k

/-- One iteration of the writer loop `Db.write` on the message `(k, v)`.
`ioFails` injects an `os.File.Write` failure, answered with the
"failed to put" error and no state change. On success the index entry is
written with the offset before the write, the offset advances by the bytes
written, and when `segmentOffset ≥ maxSegmentSize` the writer closes the
segment, increments the segment id and opens (creates) the next segment with
offset zero (`loadSegment`). A failed encode is answered on the reply channel
like an I/O failure (spec section 4.4). -/
def writeStep (db : Db) (k v : Bytes) (ioFails : Bool) : Db × Option DbError :=
  match encode k v with
  | .error e => (db, some e)
  | .ok rec =>
    if ioFails then (db, some .putFailed)
    else
      let db1 : Db := { db with
        index := idxSet db.index k (db.segmentIndex, db.segmentOffset),
        files := db.files.set db.segmentIndex ((db.files.getD db.segmentIndex []) ++ rec),
        segmentOffset := db.segmentOffset + rec.length }
      if db.maxSegmentSize ≤ db1.segmentOffset then
        ({ db1 with
            segmentIndex := db.segmentIndex + 1,
            files := db1.files ++ [[]],
            segmentOffset := 0 }, none)
      else (db1, none)

/-- Go `Db.Put`: fails with `ErrDbClosed` on a closed store, otherwise sends
the entry to the writer loop and waits for the reply. -/
def Put (db : Db) (k v : Bytes) (ioFails : Bool) : Db × Option DbError :=
  if db.isClosed then (db, some .dbClosed) else writeStep db k v ioFails

/-- Go `Db.Close`: a no-op returning `nil` on an already-closed store;
otherwise it closes the write channel, the worker queue and the segment file
handle, and sets the closed flag. -/
def Close (db : Db) : Db × Option DbError :=
  if db.isClosed then (db, none)
  else ({ db with isClosed := true, wqClosed := true }, none)

/-- The loop of Go `Db.Copy` over the remaining index entries: read each
key's current value through `Db.get`, append a fresh record to the swap file,
and record the `(0, offset)` entry in a fresh index. -/
def copyLoop (db : Db) : HashIndex → Bytes → Nat → HashIndex →
    Except DbError (Nat × HashIndex × Bytes)
  | [], contents, off, newIdx => .ok (off, newIdx, contents)
  | (k, _) :: rest, contents, off, newIdx =>
    match getDb db k with
    | .error e => .error e
    | .ok v =>
      copyLoop db rest (contents ++ encodeRecord k v)
        (off + (encodeRecord k v).length) (idxSet newIdx k (0, off))

/-- Go `Db.Copy`: writes one record per live key into the swap file, returning
the total bytes written, the fresh index and the swap file contents. -/
def Copy (db : Db) : Except DbError (Nat × HashIndex × Bytes) :=
  copyLoop db db.index [] 0 []

/-- Go `Db.Merge`: copy the live keys to a timestamped swap file, rename it
over segment 0, open it for append, install the fresh index, offset and
segment id 0, and unlink segments `1..old`. The directory afterwards holds the
single file `0.seg` with the swap contents. -/
def Merge (db : Db) : Except DbError Db :=
  if db.isClosed then .error .dbClosed
  else match Copy db with
    | .error e => .error e
    | .ok (total, idx, contents) =>
      .ok { db with
        files := [contents], segmentIndex := 0, segmentOffset := total,
        index := idx }

/-! ### Recovery (Go `Db.recover` and `NewDb`) -/

/-- The fixed recovery buffer size (Go `recoverbufferSize`). -/
def recoverbufferSize : Nat := 8192

/-- The replay loop of Go `Db.recover` over one segment, with explicit fuel
for structural recursion (callers pass at least `content.length + 1`, which
bounds the iteration count, so the fuel-exhausted error is unreachable).
`p` is both the buffered reader's position and `db.segmentOffset`, which
advance together from 0. Each iteration peeks up to 8192 buffered bytes
(`io.EOF` with an empty peek ends the segment; a nonempty peek shorter than 4
bytes makes `binary.LittleEndian.Uint32` panic), reads the 4-byte
`total_size`, then reads `size` bytes from the buffered reader: one buffered
`Read` returns at most `min 8192 rem` bytes, so the `n ≠ size`
"corrupted file" error triggers exactly when `size` exceeds the buffered
bytes. Go's `entry.Decode` has no error return and panics on malformed data;
the model surfaces that as the decode error. -/
def recoverLoop (content : Bytes) (segId : Nat) : Nat → HashIndex → Nat →
    Except DbError (HashIndex × Nat)
  | 0, _, _ => .error .runtimeFault
  | fuel + 1, idx, p =>
    if content.length ≤ p then .ok (idx, p)
    else
      let rem := content.length - p
      if rem < 4 then .error .runtimeFault
      else
        match readLe32 (content.drop p) with
        | none => .error .runtimeFault
        | some (size, _) =>
          let n := min size (min recoverbufferSize rem)
          if n ≠ size then .error .corruptedFile
          else match decodeRecord ((content.drop p).take size) with
            | .error e => .error e
            | .ok r => recoverLoop content segId fuel (idxSet idx r.1 (segId, p)) (p + size)

/-- Replay one whole segment (Go starts each segment at offset 0). -/
def recoverSegment (content : Bytes) (segId : Nat) (idx : HashIndex) :
    Except DbError (HashIndex × Nat) :=
  recoverLoop content segId (content.length + 1) idx 0

/-- A directory entry: a file name and the file contents. -/
structure DirFile where
  name : List Char
  content : Bytes
  deriving DecidableEq, Repr

/-- Decimal digits of `n`, most significant first (fueled). -/
def digitChars : Nat → Nat → List Char
  | 0, _ => []
  | fuel + 1, n => if n = 0 then [] else digitChars fuel (n / 10) ++ [Nat.digitChar (n % 10)]

/-- Go `fmt.Sprintf("%d", n)` for a natural number. -/
def natStem (n : Nat) : List Char := if n = 0 then ['0'] else digitChars n n

/-- The file name `<id>.seg` of segment `id` (Go `Db.toSegmentPath`; the model
keeps names directory-relative). -/
def segFileName (i : Nat) : List Char := natStem i ++ segExt

/-- Contents of the directory file with the given name; `none` models a failed
`os.OpenFile` with `O_RDONLY`. -/
def findFile (dir : List DirFile) (nm : List Char) : Option Bytes :=
  (dir.find? (fun f => f.name = nm)).map (fun f => f.content)

/-- The replay loop of Go `Db.recover` over segments `i, i+1, ...` (`cnt`
many, ascending ids): open each segment read-only (an absent file fails the
recovery) and replay it, accumulating the index and collecting the contents. -/
def recoverFrom (dir : List DirFile) : Nat → Nat → HashIndex →
    Except DbError (HashIndex × List Bytes)
  | _, 0, idx => .ok (idx, [])
  | i, cnt + 1, idx =>
    match findFile dir (segFileName i) with
    | none => .error .ioError
    | some content =>
      match recoverSegment content i idx with
      | .error e => .error e
      | .ok (idx2, _) =>
        match recoverFrom dir (i + 1) cnt idx2 with
        | .error e => .error e
        | .ok (idx3, rest) => .ok (idx3, content :: rest)

/-- Go `NewDb`: compute the maximum segment id from the directory listing,
replay segments `0..max` in ascending id order rebuilding the index, then
`loadSegment` opens the highest segment for append — creating an empty
`0.seg` when no segment exists — and resets the tracked `segmentOffset` to
zero (the Go `loadSegment` does this unconditionally). -/
def newDb (dir : List DirFile) (maxSegmentSize : Nat) : Except DbError Db :=
  match recoverSegmentIndex (dir.map (fun f => f.name)) with
  | .error e => .error e
  | .ok maxIdx =>
    if maxIdx < 0 then
      .ok { files := [[]], segmentOffset := 0, segmentIndex := 0,
            maxSegmentSize := maxSegmentSize, index := [],
            isClosed := false, wqClosed := false }
    else
      match recoverFrom dir 0 (maxIdx.toNat + 1) [] with
      | .error e => .error e
      | .ok (idx, contents) =>
        .ok { files := contents, segmentOffset := 0, segmentIndex := maxIdx.toNat,
              maxSegmentSize := maxSegmentSize, index := idx,
              isClosed := false, wqClosed := false }

/-- The store state `NewDb` builds on an empty directory: one empty active
segment `0.seg`, an empty index. -/
def freshDb (maxSegmentSize : Nat) : Db :=
  { files := [[]], segmentOffset := 0, segmentIndex := 0,
    maxSegmentSize := maxSegmentSize, index := [],
    isClosed := false, wqClosed := false }

/-- Run a sequence of `Put`s (each a writer-loop iteration, no injected I/O
failures), keeping the final state. -/
def runPuts (db : Db) (ps : List Rec) : Db :=
  ps.foldl (fun d r => (Put d r.1 r.2 false).1) db

/-- All `Put`s in the sequence succeed (each reply is `nil`). -/
def runPutsOk (db : Db) : List Rec → Bool
  | [] => true
  | r :: rest =>
    match Put db r.1 r.2 false with
    | (d, none) => runPutsOk d rest
    | (_, some _) => false

/-! ### Pure log semantics used to state the claims -/

/-- The value of the last record for `k` in a put sequence. -/
def lastVal : List Rec → Bytes → Option Bytes
  | [], _ => none
  | (k2, v2) :: rest, k =>
    match lastVal rest k with
    | some v => some v
    | none => if k2 = k then some v2 else none

/-- Concatenation of the encodings of a record list: the contents of a segment
that received exactly those records. -/
def concatRecords (rs : List Rec) : Bytes :=
  (rs.map (fun r => encodeRecord r.1 r.2)).flatten

/-- Byte offset and value of the last record for `k` in a record list. -/
def findLastPos : List Rec → Bytes → Option (Nat × Bytes)
  | [], _ => none
  | (k2, v2) :: rest, k =>
    match findLastPos rest k with
    | some (off, v) => some (recSize (k2, v2) + off, v)
    | none => if k2 = k then some (0, v2) else none

/-- Relative segment, byte offset and value of the last record for `k` in a
list of segments. -/
def findLastSeg : List (List Rec) → Bytes → Option (Nat × Nat × Bytes)
  | [], _ => none
  | rs :: rest, k =>
    match findLastSeg rest k with
    | some (j, off, v) => some (j + 1, off, v)
    | none => (findLastPos rs k).map (fun x => (0, x.1, x.2))

/-- The index produced by replaying one segment's records in order, starting
at byte offset `p` of segment `segId`: each record sets its key to the offset
at which it starts (exactly what both the writer loop and recovery do). -/
def replayIdx (segId : Nat) : Nat → List Rec → HashIndex → HashIndex × Nat
  | p, [], idx => (idx, p)
  | p, r :: rest, idx => replayIdx segId (p + recSize r) rest (idxSet idx r.1 (segId, p))

/-- The index produced by replaying a list of segments with ascending ids
starting at `i`. -/
def replaySegsIdx : List (List Rec) → Nat → HashIndex → HashIndex
  | [], _, idx => idx
  | rs :: rest, i, idx => replaySegsIdx rest (i + 1) (replayIdx i 0 rs idx).1

/-- Cumulative encoded size of a put sequence. -/
def totalSize (ps : List Rec) : Nat := (ps.map recSize).sum

/-- Every put in the sequence is encodable (spec section 8, property 6); under
this hypothesis every `Put` succeeds, so the sequence is exactly a sequence of
successful `Put`s. -/
def SizeOkAll (ps : List Rec) : Prop := ∀ r ∈ ps, sizeOk r.1 r.2

/-- Every record of the sequence fits the 8192-byte recovery buffer. -/
def SmallAll (ps : List Rec) : Prop := ∀ r ∈ ps, recSize r ≤ recoverbufferSize

/-- Name the segment files of a contents list, ids ascending from `base`. -/
def dirOfAux : List Bytes → Nat → List DirFile
  | [], _ => []
  | c :: rest, i => ⟨segFileName i, c⟩ :: dirOfAux rest (i + 1)

/-- The canonical directory holding the given segment contents as
`0.seg, 1.seg, ...` — exactly what a store whose `files` are these contents
leaves on disk. -/
def dirOf (files : List Bytes) : List DirFile := dirOfAux files 0

/-- The writer-reachability invariant tying a store state to the records each
segment received (`rss` lists the records of segments `0..segmentIndex` in
write order). It holds for a freshly opened store and is preserved by every
successful `Put`; it is the precondition under which `Get`, `Merge` and
reopen behave as specified. -/
structure INV (db : Db) (rss : List (List Rec)) : Prop where
  hfiles : db.files = rss.map concatRecords
  hlen : rss.length = db.segmentIndex + 1
  hoff : db.segmentOffset = (concatRecords (rss.getLastD [])).length
  hidx : db.index = replaySegsIdx rss 0 []
  hsz : ∀ r ∈ rss.flatten, sizeOk r.1 r.2
  hopen : db.isClosed = false
  hwq : db.wqClosed = false


/-! ### Codec lemmas and claim C8 -/

theorem le32_le32val (n : Nat) (h : n < 2 ^ 32) :
    le32val (n % 256) (n / 256 % 256) (n / 256 ^ 2 % 256) (n / 256 ^ 3 % 256) = n := by
  unfold le32val
  omega

theorem readLe32_le32 (n : Nat) (rest : Bytes) (h : n < 2 ^ 32) :
    readLe32 (le32 n ++ rest) = some (n, rest) := by
  simp only [le32, List.cons_append, List.nil_append, readLe32]
  rw [le32_le32val n h]

theorem encodeRecord_length (k v : Bytes) :
    (encodeRecord k v).length = 12 + k.length + v.length := by
  simp only [encodeRecord, le32, List.length_append, List.length_cons, List.length_nil]
  omega

theorem encodeRecord_eq (k v : Bytes) :
    encodeRecord k v =
      le32 (12 + k.length + v.length) ++ (le32 k.length ++ (k ++ (le32 v.length ++ v))) := by
  simp [encodeRecord]

theorem decodeRecord_encodeRecord (k v : Bytes) (h : sizeOk k v) :
    decodeRecord (encodeRecord k v) = .ok (k, v) := by
  have hk : k.length < 2 ^ 32 := by unfold sizeOk at h; omega
  have hv : v.length < 2 ^ 32 := by unfold sizeOk at h; omega
  have ht : 12 + k.length + v.length < 2 ^ 32 := by unfold sizeOk at h; omega
  unfold decodeRecord
  rw [encodeRecord_eq, readLe32_le32 _ _ ht]
  simp only
  rw [if_neg (by rw [← encodeRecord_eq, encodeRecord_length]; omega)]
  rw [readLe32_le32 _ _ hk]
  simp only
  rw [if_neg (by simp only [List.length_append, le32, List.length_cons, List.length_nil]; omega)]
  rw [List.drop_left, readLe32_le32 _ _ hv]
  simp only
  rw [if_neg (by omega), List.take_left]

/-- Reading at the start of a record embedded in a longer byte string returns
that record's value. -/
theorem readValueAt_of_drop (content : Bytes) (off : Nat) (k v tail : Bytes)
    (hsz : sizeOk k v) (hdrop : content.drop off = encodeRecord k v ++ tail) :
    readValueAt content off = .ok v := by
  have ht : 12 + k.length + v.length < 2 ^ 32 := by unfold sizeOk at hsz; omega
  unfold readValueAt
  simp only [hdrop]
  rw [encodeRecord_eq, List.append_assoc, readLe32_le32 _ _ ht]
  simp only
  rw [← List.append_assoc, ← encodeRecord_eq]
  rw [if_neg (by simp only [List.length_append, encodeRecord_length]; omega)]
  rw [List.take_append_of_le_length (by rw [encodeRecord_length]),
    List.take_of_length_le (by rw [encodeRecord_length]),
    decodeRecord_encodeRecord k v hsz]

/-- Claim C8: record codec round-trip. For every key and value whose combined
length is below `2 ^ 32 - 12` bytes, decoding the encoding of `(k, v)` yields
`(k, v)` back, and `encode` rejects keys or values beyond that bound. -/
theorem claim_c8_codec_roundtrip (k v : Bytes) :
    (k.length + v.length < 2 ^ 32 - 12 →
      encode k v = .ok (encodeRecord k v) ∧
      decodeRecord (encodeRecord k v) = .ok (k, v)) ∧
    (2 ^ 32 - 12 ≤ k.length + v.length →
      encode k v = .error .encodeTooLarge) := by
  constructor
  · intro h
    refine ⟨?_, decodeRecord_encodeRecord k v h⟩
    have h2 : sizeOk k v := h
    rw [encode, if_pos h2]
  · intro h
    rw [encode, if_neg (by unfold sizeOk; omega)]

theorem claim_c8_codec_roundtrip_witness :
    decodeRecord (encodeRecord [107] [86, 87]) = .ok ([107], [86, 87]) ∧
    encode (List.replicate (2 ^ 32) 0) [] = .error .encodeTooLarge := by
  refine ⟨((claim_c8_codec_roundtrip [107] [86, 87]).1 (by decide)).2, ?_⟩
  exact (claim_c8_codec_roundtrip (List.replicate (2 ^ 32) 0) []).2
    (by rw [List.length_replicate, List.length_nil]; omega)

/-! ### Index lemmas -/

theorem idxGet_idxSet (idx : HashIndex) (k k2 : Bytes) (e : Nat × Nat) :
    idxGet (idxSet idx k e) k2 = if k = k2 then some e else idxGet idx k2 := by
  induction idx with
  | nil =>
    by_cases h : k = k2 <;> simp [idxSet, idxGet, h]
  | cons hd tl ih =>
    obtain ⟨k3, e3⟩ := hd
    simp only [idxSet]
    by_cases h3 : k3 = k
    · subst h3
      simp only [if_pos rfl, idxGet]
      by_cases h : k3 = k2 <;> simp [h]
    · rw [if_neg h3]
      simp only [idxGet]
      by_cases h2 : k3 = k2
      · subst h2
        rw [if_pos rfl, if_pos rfl, if_neg (fun hh => h3 hh.symm)]
      · rw [if_neg h2, if_neg h2, ih]


/-! ### Opening an empty directory -/

/-- `NewDb` on an empty directory yields the fresh store. -/
theorem newDb_nil (S : Nat) : newDb [] S = .ok (freshDb S) := rfl

/-! ### Claim C4 (offset tracking across reopen) -/

/-- Claim C4 is violated by the code: `loadSegment`, called at the end of
`recover`, unconditionally resets the tracked `segmentOffset` to zero, so
after `NewDb` reopens a directory whose highest segment is non-empty the
active segment's on-disk length (here 14 bytes) differs from the tracked
offset (0). Consequently the next `Put` appends its record at byte 14
(`O_APPEND`) but indexes it at offset 0, and a subsequent `Get` of the new
key returns the value of the old record sitting at offset 0. -/
theorem claim_c4_offset_reset_bug :
    ∃ db : Db,
      newDb [⟨segFileName 0, encodeRecord [107] [118]⟩] 1024 = .ok db ∧
      (db.files.getD db.segmentIndex []).length = 14 ∧
      db.segmentOffset = 0 ∧
      (Put db [200] [201] false).2 = none ∧
      idxGet (Put db [200] [201] false).1.index [200] = some (0, 0) ∧
      Get (Put db [200] [201] false).1 [200] = .ok [118] := by
  refine ⟨Db.mk [[14, 0, 0, 0, 1, 0, 0, 0, 107, 1, 0, 0, 0, 118]] 0 0 1024
    [([107], (0, 0))] false false, rfl, rfl, rfl, rfl, rfl, rfl⟩

/-! ### Claim C5 (Put failure atomicity) -/

/-- Claim C5: when the append of a record fails, the error is returned on the
reply channel and the writer state — in particular the index and the tracked
offset — is unchanged, so the next (successful) `Put` writes and indexes its
record at the very offset the failed one would have used. -/
theorem claim_c5_put_failure_atomicity (db : Db) (k v k2 v2 : Bytes)
    (hopen : db.isClosed = false) (henc : sizeOk k v) (henc2 : sizeOk k2 v2) :
    Put db k v true = (db, some .putFailed) ∧
    idxGet (Put db k2 v2 false).1.index k2 = some (db.segmentIndex, db.segmentOffset) := by
  constructor
  · rw [Put, if_neg (by rw [hopen]; exact Bool.false_ne_true), writeStep,
      encode, if_pos henc]
    rfl
  · rw [Put, if_neg (by rw [hopen]; exact Bool.false_ne_true), writeStep,
      encode, if_pos henc2]
    simp only [Bool.false_eq_true, if_false]
    by_cases hro : db.maxSegmentSize ≤ db.segmentOffset + (encodeRecord k2 v2).length
    · rw [if_pos hro]
      simp only [idxGet_idxSet, if_pos rfl, if_pos trivial]
    · rw [if_neg hro]
      simp only [idxGet_idxSet, if_pos rfl, if_pos trivial]

theorem claim_c5_put_failure_atomicity_witness :
    Put (freshDb 1024) [1] [2] true = (freshDb 1024, some .putFailed) ∧
    idxGet (Put (freshDb 1024) [3] [4] false).1.index [3] = some (0, 0) := by
  exact claim_c5_put_failure_atomicity (freshDb 1024) [1] [2] [3] [4]
    rfl (by decide) (by decide)

/-! ### Claim C7 (Close semantics) -/

/-- Claim C7: `Close` is idempotent — a second `Close` is a no-op returning
`nil` — and after `Close` every `Put`, `Get` and `Merge` fails with an error
of the `Closed` kind (the store sentinel `ErrDbClosed` for `Put` and `Merge`,
and for `Get` the closed worker queue's `ErrWorkerQueueIsClosed`) without
performing the operation. -/
theorem claim_c7_close_semantics (db : Db) (k v : Bytes) (io : Bool) :
    Close ((Close db).1) = ((Close db).1, none) ∧
    Put ((Close db).1) k v io = ((Close db).1, some .dbClosed) ∧
    DbError.closedKind .dbClosed = true ∧
    (∃ e, Get ((Close db).1) k = .error e ∧ e.closedKind = true) ∧
    Merge ((Close db).1) = .error .dbClosed := by
  have hclosed : (Close db).1.isClosed = true := by
    rw [Close]
    by_cases h : db.isClosed = true
    · rw [if_pos h]; exact h
    · rw [if_neg h]
  refine ⟨?_, ?_, rfl, ?_, ?_⟩
  · rw [Close, if_pos hclosed]
  · rw [Put, if_pos hclosed]
  · by_cases hw : (Close db).1.wqClosed = true
    · exact ⟨.workerQueueClosed, by rw [Get, if_pos hw], rfl⟩
    · refine ⟨.dbClosed, ?_, rfl⟩
      rw [Get, if_neg hw, getDb, if_pos hclosed]
  · rw [Merge, if_pos hclosed]


/-! ### Decimal names: digits, Atoi, and the segment-name grammar -/

theorem digitsVal_append (cs : List Char) (c : Char) :
    digitsVal (cs ++ [c]) = 10 * digitsVal cs + (c.toNat - 48) := by
  unfold digitsVal
  rw [List.foldl_append]
  rfl

theorem allDigits_append (xs ys : List Char) :
    allDigits (xs ++ ys) = (allDigits xs && allDigits ys) := by
  unfold allDigits
  rw [List.all_append]

theorem digitChar_toNat (d : Nat) (h : d < 10) :
    48 ≤ (Nat.digitChar d).toNat ∧ (Nat.digitChar d).toNat ≤ 57 ∧
      (Nat.digitChar d).toNat - 48 = d := by
  interval_cases d <;> exact ⟨by decide, by decide, by decide⟩

theorem digitChars_zero (fuel : Nat) : digitChars fuel 0 = [] := by
  cases fuel <;> simp [digitChars]

theorem digitChars_spec (fuel n : Nat) (hn : n ≠ 0) (hf : n ≤ fuel) :
    allDigits (digitChars fuel n) = true ∧ digitsVal (digitChars fuel n) = n ∧
    digitChars fuel n ≠ [] := by
  induction fuel generalizing n with
  | zero => omega
  | succ f ih =>
    rw [digitChars, if_neg hn]
    have hd := digitChar_toNat (n % 10) (Nat.mod_lt _ (by norm_num))
    by_cases h10 : n / 10 = 0
    · rw [h10, digitChars_zero, List.nil_append]
      refine ⟨?_, ?_, by simp⟩
      · unfold allDigits
        simp only [List.all_cons, List.all_nil, Bool.and_true, Bool.and_eq_true,
          decide_eq_true_eq]
        exact ⟨hd.1, hd.2.1⟩
      · unfold digitsVal
        simp only [List.foldl_cons, List.foldl_nil]
        have := Nat.div_add_mod n 10
        omega
    · have hlt : n / 10 < n := Nat.div_lt_self (Nat.pos_of_ne_zero hn) (by norm_num)
      obtain ⟨iha, ihv, _⟩ := ih (n / 10) h10 (by omega)
      refine ⟨?_, ?_, by simp⟩
      · rw [allDigits_append, iha]
        unfold allDigits
        simp only [List.all_cons, List.all_nil, Bool.and_true, Bool.true_and,
          Bool.and_eq_true, decide_eq_true_eq]
        exact ⟨hd.1, hd.2.1⟩
      · rw [digitsVal_append, ihv]
        have := Nat.div_add_mod n 10
        omega

theorem natStem_spec (n : Nat) :
    allDigits (natStem n) = true ∧ digitsVal (natStem n) = n ∧ natStem n ≠ [] := by
  unfold natStem
  by_cases h : n = 0
  · subst h
    exact ⟨by decide, by decide, by decide⟩
  · rw [if_neg h]
    exact digitChars_spec n n h le_rfl

theorem natStem_inj (a b : Nat) (h : natStem a = natStem b) : a = b :=
  ((natStem_spec a).2.1.symm.trans (by rw [h])).trans (natStem_spec b).2.1

theorem natStem_no_dot (n : Nat) : ('.' : Char) ∉ natStem n := by
  intro hmem
  have ha := (natStem_spec n).1
  unfold allDigits at ha
  rw [List.all_eq_true] at ha
  have h2 := ha _ hmem
  simp only [Bool.and_eq_true, decide_eq_true_eq] at h2
  have : ('.' : Char).toNat = 46 := rfl
  omega

theorem takeWhile_not_dot (stem : List Char) (hnd : ('.' : Char) ∉ stem) :
    stem.takeWhile (fun c => c ≠ '.') = stem := by
  induction stem with
  | nil => rfl
  | cons c rest ih =>
    rw [List.mem_cons, not_or] at hnd
    have hc : decide (c ≠ '.') = true := by
      simp only [ne_eq, decide_eq_true_eq]
      exact fun h => hnd.1 h.symm
    rw [List.takeWhile_cons, if_pos hc, ih hnd.2]

theorem extOf_stem_seg (stem : List Char) :
    extOf (stem ++ segExt) = segExt := by
  have h1 : (stem ++ segExt).reverse.takeWhile (fun c => c ≠ '.') = ['g', 'e', 's'] := by
    rw [show segExt = ['.'] ++ ['s', 'e', 'g'] from rfl, ← List.append_assoc,
      List.reverse_append, List.reverse_append]
    rfl
  rw [extOf, h1, if_neg (by
    simp only [List.length_cons, List.length_nil, List.length_append, segExt]
    omega)]
  rfl



theorem trimSuffixL_stem_seg (stem : List Char) :
    trimSuffixL (stem ++ segExt) segExt = stem := by
  have h : stem.length = (stem ++ segExt).length - segExt.length := by
    simp [segExt]
  rw [trimSuffixL, if_pos ⟨by simp [segExt], List.drop_left' h⟩, List.take_left' h]

theorem atoiVal_natStem (n : Nat) (hn : n ≤ 2 ^ 63 - 1) :
    atoiVal (natStem n) = some (n : Int) := by
  obtain ⟨had, hval, hne⟩ := natStem_spec n
  obtain ⟨c, rest, hcons⟩ : ∃ c rest, natStem n = c :: rest := by
    cases h : natStem n with
    | nil => exact absurd h hne
    | cons c rest => exact ⟨c, rest, rfl⟩
  have hc : 48 ≤ c.toNat := by
    rw [hcons] at had
    unfold allDigits at had
    rw [List.all_cons, Bool.and_eq_true] at had
    have := had.1
    rw [Bool.and_eq_true, decide_eq_true_eq, decide_eq_true_eq] at this
    exact this.1
  have hminus : ¬ c = '-' := by
    intro h
    subst h
    have : ('-' : Char).toNat = 45 := rfl
    omega
  have hplus : ¬ c = '+' := by
    intro h
    subst h
    have : ('+' : Char).toNat = 43 := rfl
    omega
  rw [hcons, atoiVal, if_neg hminus, if_neg hplus,
    if_neg (by rw [← hcons]; exact fun hh => hh had),
    if_pos (by rw [← hcons, hval]; exact hn), ← hcons, hval]

/-! ### Lemmas on `recoverSegmentIndex` -/

theorem recoverSegmentIndexAux_bad (names : List (List Char)) (m : Int)
    (h : ∃ nm ∈ names, extOf nm = segExt ∧ atoiVal (trimSuffixL nm segExt) = none) :
    recoverSegmentIndexAux names m = .error .badSegmentName := by
  induction names generalizing m with
  | nil => obtain ⟨nm, hmem, _⟩ := h; exact absurd hmem (List.not_mem_nil nm)
  | cons nm rest ih =>
    obtain ⟨nm2, hmem, hext, hbad⟩ := h
    rw [recoverSegmentIndexAux]
    rcases List.mem_cons.mp hmem with heq | hmem2
    · subst heq
      rw [if_pos hext, hbad]
    · by_cases hext1 : extOf nm = segExt
      · rw [if_pos hext1]
        cases hat : atoiVal (trimSuffixL nm segExt) with
        | none => rfl
        | some idx => exact ih _ ⟨nm2, hmem2, hext, hbad⟩
      · rw [if_neg hext1]
        exact ih _ ⟨nm2, hmem2, hext, hbad⟩

theorem recoverSegmentIndexAux_filter (names : List (List Char)) (m : Int) :
    recoverSegmentIndexAux (names.filter (fun nm => decide (extOf nm = segExt))) m =
      recoverSegmentIndexAux names m := by
  induction names generalizing m with
  | nil => rfl
  | cons nm rest ih =>
    rw [List.filter_cons]
    by_cases hext : extOf nm = segExt
    · rw [if_pos (by simpa using hext), recoverSegmentIndexAux,
        recoverSegmentIndexAux, if_pos hext, if_pos hext]
      cases atoiVal (trimSuffixL nm segExt) with
      | none => rfl
      | some idx => exact ih _
    · rw [if_neg (by simpa using hext), recoverSegmentIndexAux, if_neg hext]
      exact ih m

/-- Claim C9: a directory containing a file with the `.seg` extension whose
stem `strconv.Atoi` cannot parse makes `NewDb` fail with the
bad-segment-name error (the store does not come up), while files without the
segment extension never influence `recoverSegmentIndex`. -/
theorem claim_c9_bad_segment_names :
    (∀ (dir : List DirFile) (S : Nat),
      (∃ f ∈ dir, extOf f.name = segExt ∧ atoiVal (trimSuffixL f.name segExt) = none) →
      newDb dir S = .error .badSegmentName) ∧
    (∀ names : List (List Char),
      recoverSegmentIndex (names.filter (fun nm => decide (extOf nm = segExt))) =
        recoverSegmentIndex names) := by
  constructor
  · intro dir S h
    obtain ⟨f, hmem, hext, hbad⟩ := h
    rw [newDb, recoverSegmentIndex, recoverSegmentIndexAux_bad _ _
      ⟨f.name, List.mem_map_of_mem _ hmem, hext, hbad⟩]
  · intro names
    exact recoverSegmentIndexAux_filter names (-1)

theorem claim_c9_bad_segment_names_witness :
    newDb [⟨['a', 'b', 'c', '.', 's', 'e', 'g'], []⟩] 7 = .error .badSegmentName :=
  claim_c9_bad_segment_names.1 [⟨['a', 'b', 'c', '.', 's', 'e', 'g'], []⟩] 7
    ⟨⟨['a', 'b', 'c', '.', 's', 'e', 'g'], []⟩, List.mem_singleton.mpr rfl,
      by decide, by decide⟩


/-! ### Replaying segments: `recoverLoop` on well-formed record logs -/

theorem concatRecords_nil : concatRecords [] = [] := rfl

theorem concatRecords_cons (r : Rec) (rs : List Rec) :
    concatRecords (r :: rs) = encodeRecord r.1 r.2 ++ concatRecords rs := by
  simp [concatRecords]

theorem concatRecords_append (xs ys : List Rec) :
    concatRecords (xs ++ ys) = concatRecords xs ++ concatRecords ys := by
  simp [concatRecords]

theorem concatRecords_length (rs : List Rec) :
    (concatRecords rs).length = totalSize rs := by
  induction rs with
  | nil => rfl
  | cons r rest ih =>
    rw [concatRecords_cons, List.length_append, ih, encodeRecord_length]
    unfold totalSize recSize
    simp only [List.map_cons, List.sum_cons]

theorem length_le_concatRecords (rs : List Rec) :
    rs.length ≤ (concatRecords rs).length := by
  induction rs with
  | nil => simp
  | cons r rest ih =>
    rw [concatRecords_cons, List.length_append, encodeRecord_length]
    simp only [List.length_cons]
    omega

/-- Replaying a segment that holds exactly the records `rs` (each encodable
and within the 8192-byte recovery buffer) succeeds and produces the same index
updates, at the same offsets, as writing those records did. -/
theorem recoverLoop_ok (content : Bytes) (segId : Nat) (rs : List Rec) :
    ∀ (fuel p : Nat) (idx : HashIndex), content.drop p = concatRecords rs →
    (∀ r ∈ rs, sizeOk r.1 r.2 ∧ recSize r ≤ recoverbufferSize) →
    rs.length < fuel →
    recoverLoop content segId fuel idx p = .ok (replayIdx segId p rs idx) := by
  induction rs with
  | nil =>
    intro fuel p idx hdrop _ hfuel
    obtain ⟨f, rfl⟩ : ∃ f, fuel = f + 1 := ⟨fuel - 1, by omega⟩
    rw [concatRecords_nil] at hdrop
    rw [recoverLoop, if_pos (List.drop_eq_nil_iff.mp hdrop), replayIdx]
  | cons r rest ih =>
    intro fuel p idx hdrop hok hfuel
    obtain ⟨f, rfl⟩ : ∃ f, fuel = f + 1 := ⟨fuel - 1, by omega⟩
    obtain ⟨k, v⟩ := r
    have hsz : sizeOk k v := (hok (k, v) (List.mem_cons_self _ _)).1
    have hsmall : 12 + k.length + v.length ≤ 8192 := (hok (k, v) (List.mem_cons_self _ _)).2
    have hsz2 : k.length + v.length < 2 ^ 32 - 12 := hsz
    have ht : 12 + k.length + v.length < 2 ^ 32 := by omega
    rw [concatRecords_cons] at hdrop
    have hdl : (content.drop p).length = content.length - p := List.length_drop p content
    have hrl : (content.drop p).length =
        (12 + k.length + v.length) + (concatRecords rest).length := by
      rw [hdrop, List.length_append, encodeRecord_length]
    have hplt : p < content.length := by omega
    have hrem4 : ¬ content.length - p < 4 := by omega
    rw [recoverLoop, if_neg (by omega)]
    simp only
    rw [if_neg hrem4]
    rw [show content.drop p =
      le32 (12 + k.length + v.length) ++ (le32 k.length ++ (k ++ (le32 v.length ++ v))
        ++ concatRecords rest) from by rw [hdrop, encodeRecord_eq]; simp]
    rw [readLe32_le32 _ _ ht]
    simp only
    have hrec : recSize (k, v) = 12 + k.length + v.length := rfl
    rw [if_neg (by unfold recoverbufferSize; omega)]
    rw [show le32 (12 + k.length + v.length) ++ (le32 k.length ++ (k ++ (le32 v.length ++ v))
        ++ concatRecords rest) = encodeRecord k v ++ concatRecords rest from by
      rw [encodeRecord_eq]; simp]
    rw [List.take_append_of_le_length (by rw [encodeRecord_length]),
      List.take_of_length_le (by rw [encodeRecord_length]),
      decodeRecord_encodeRecord k v hsz]
    simp only
    rw [replayIdx, hrec]
    refine ih f (p + (12 + k.length + v.length)) _ ?_
      (fun r hr => hok r (List.mem_cons_of_mem _ hr))
      (by simp only [List.length_cons] at hfuel; omega)
    rw [← List.drop_drop, hdrop]
    exact List.drop_left' (encodeRecord_length k v)


/-- Replaying a segment whose records are all encodable but at least one of
which exceeds the 8192-byte recovery buffer fails with the "corrupted file"
error: the buffered read returns at most 8192 bytes, short of the declared
`total_size`. -/
theorem recoverLoop_hasBig (content : Bytes) (segId : Nat) (rs : List Rec) :
    ∀ (fuel p : Nat) (idx : HashIndex), content.drop p = concatRecords rs →
    (∀ r ∈ rs, sizeOk r.1 r.2) →
    (∃ r ∈ rs, recoverbufferSize < recSize r) →
    rs.length < fuel →
    recoverLoop content segId fuel idx p = .error .corruptedFile := by
  induction rs with
  | nil =>
    intro fuel p idx _ _ hbig _
    obtain ⟨r, hr, _⟩ := hbig
    exact absurd hr (List.not_mem_nil r)
  | cons r rest ih =>
    intro fuel p idx hdrop hok hbig hfuel
    obtain ⟨f, rfl⟩ : ∃ f, fuel = f + 1 := ⟨fuel - 1, by omega⟩
    obtain ⟨k, v⟩ := r
    have hsz : sizeOk k v := hok (k, v) (List.mem_cons_self _ _)
    have hsz2 : k.length + v.length < 2 ^ 32 - 12 := hsz
    have ht : 12 + k.length + v.length < 2 ^ 32 := by omega
    rw [concatRecords_cons] at hdrop
    have hdl : (content.drop p).length = content.length - p := List.length_drop p content
    have hrl : (content.drop p).length =
        (12 + k.length + v.length) + (concatRecords rest).length := by
      rw [hdrop, List.length_append, encodeRecord_length]
    have hplt : p < content.length := by omega
    rw [recoverLoop, if_neg (by omega)]
    simp only
    rw [if_neg (by omega)]
    rw [show content.drop p =
      le32 (12 + k.length + v.length) ++ (le32 k.length ++ (k ++ (le32 v.length ++ v))
        ++ concatRecords rest) from by rw [hdrop, encodeRecord_eq]; simp]
    rw [readLe32_le32 _ _ ht]
    simp only
    by_cases hb : recoverbufferSize < 12 + k.length + v.length
    · rw [if_pos (by unfold recoverbufferSize at hb ⊢; omega)]
    · have hsmall : 12 + k.length + v.length ≤ 8192 := by
        unfold recoverbufferSize at hb; omega
      rw [if_neg (by unfold recoverbufferSize; omega)]
      rw [show le32 (12 + k.length + v.length) ++ (le32 k.length ++ (k ++ (le32 v.length ++ v))
          ++ concatRecords rest) = encodeRecord k v ++ concatRecords rest from by
        rw [encodeRecord_eq]; simp]
      rw [List.take_append_of_le_length (by rw [encodeRecord_length]),
        List.take_of_length_le (by rw [encodeRecord_length]),
        decodeRecord_encodeRecord k v hsz]
      simp only
      refine ih f (p + (12 + k.length + v.length)) _ ?_
        (fun r hr => hok r (List.mem_cons_of_mem _ hr)) ?_
        (by simp only [List.length_cons] at hfuel; omega)
      · rw [← List.drop_drop, hdrop]
        exact List.drop_left' (encodeRecord_length k v)
      · obtain ⟨r2, hr2, hrbig⟩ := hbig
        rcases List.mem_cons.mp hr2 with heq | hmem2
        · exfalso
          subst heq
          have : recSize (k, v) = 12 + k.length + v.length := rfl
          unfold recoverbufferSize at hrbig hb
          omega
        · exact ⟨r2, hmem2, hrbig⟩

/-- Replaying a whole well-formed segment succeeds. -/
theorem recoverSegment_ok (segId : Nat) (rs : List Rec) (idx : HashIndex)
    (hok : ∀ r ∈ rs, sizeOk r.1 r.2 ∧ recSize r ≤ recoverbufferSize) :
    recoverSegment (concatRecords rs) segId idx = .ok (replayIdx segId 0 rs idx) :=
  recoverLoop_ok (concatRecords rs) segId rs _ 0 idx rfl hok
    (by have := length_le_concatRecords rs; omega)

/-- Replaying a whole segment with an oversized record fails. -/
theorem recoverSegment_big (segId : Nat) (rs : List Rec) (idx : HashIndex)
    (hok : ∀ r ∈ rs, sizeOk r.1 r.2)
    (hbig : ∃ r ∈ rs, recoverbufferSize < recSize r) :
    recoverSegment (concatRecords rs) segId idx = .error .corruptedFile :=
  recoverLoop_hasBig (concatRecords rs) segId rs _ 0 idx rfl hok hbig
    (by have := length_le_concatRecords rs; omega)


/-! ### The canonical directory of a segment list -/

theorem segFileName_inj (a b : Nat) (h : segFileName a = segFileName b) : a = b := by
  have ha := trimSuffixL_stem_seg (natStem a)
  have hb := trimSuffixL_stem_seg (natStem b)
  unfold segFileName at h
  rw [h] at ha
  exact natStem_inj a b (ha.symm.trans hb)

theorem extOf_segFileName (i : Nat) : extOf (segFileName i) = segExt :=
  extOf_stem_seg (natStem i)

theorem trimSuffixL_segFileName (i : Nat) :
    trimSuffixL (segFileName i) segExt = natStem i :=
  trimSuffixL_stem_seg (natStem i)

theorem findFile_dirOfAux (files : List Bytes) :
    ∀ (base j : Nat), findFile (dirOfAux files base) (segFileName (base + j)) = files.get? j := by
  induction files with
  | nil => intro base j; rfl
  | cons c rest ih =>
    intro base j
    cases j with
    | zero =>
      unfold dirOfAux findFile
      rw [List.find?_cons_of_pos _ (by simp)]
      rfl
    | succ j2 =>
      unfold dirOfAux findFile
      rw [List.find?_cons_of_neg _ (by
        simp only [decide_eq_true_eq]
        intro hh
        have := segFileName_inj _ _ hh
        omega)]
      have := ih (base + 1) j2
      unfold findFile at this
      rw [show base + (j2 + 1) = (base + 1) + j2 from by omega]
      exact this

theorem findFile_dirOf (files : List Bytes) (j : Nat) :
    findFile (dirOf files) (segFileName j) = files.get? j := by
  have := findFile_dirOfAux files 0 j
  simpa using this

/-- `recoverSegmentIndex` on the canonical directory of `n ≥ 1` segments
returns `n - 1`. -/
theorem recoverSegmentIndexAux_dirOfAux (files : List Bytes) :
    ∀ (i : Nat) (m : Int), m < i → i + files.length ≤ 2 ^ 63 →
    recoverSegmentIndexAux ((dirOfAux files i).map (fun f => f.name)) m =
      .ok (if files.isEmpty then m else (i + files.length - 1 : Int)) := by
  induction files with
  | nil => intro i m _ _; rfl
  | cons c rest ih =>
    intro i m hm hbound
    unfold dirOfAux
    simp only [List.map_cons]
    rw [recoverSegmentIndexAux, if_pos (extOf_segFileName i), trimSuffixL_segFileName,
      atoiVal_natStem i (by simp only [List.length_cons] at hbound; omega)]
    simp only
    rw [if_pos hm]
    rw [ih (i + 1) i (by omega) (by simp only [List.length_cons] at hbound; omega)]
    cases rest with
    | nil => simp
    | cons c2 rest2 =>
      simp only [List.isEmpty_cons, if_neg]
      congr 1
      simp only [List.length_cons]
      push_cast
      ring

/-- Replaying the canonical directory of `pre ++ segs` from id `|pre|`
rebuilds exactly the replay index of `segs` and returns their contents. -/
theorem recoverFrom_dirOf_ok (all : List Bytes) (rss : List (List Rec)) :
    ∀ (pre : List Bytes) (idx : HashIndex), all = pre ++ rss.map concatRecords →
    (∀ r ∈ rss.flatten, sizeOk r.1 r.2 ∧ recSize r ≤ recoverbufferSize) →
    recoverFrom (dirOf all) pre.length rss.length idx =
      .ok (replaySegsIdx rss pre.length idx, rss.map concatRecords) := by
  induction rss with
  | nil => intro pre idx _ _; rfl
  | cons rs rest ih =>
    intro pre idx hall hok
    have hf : findFile (dirOf all) (segFileName pre.length) = some (concatRecords rs) := by
      rw [findFile_dirOf all pre.length, hall, List.get?_eq_getElem?,
        List.getElem?_append_right (le_refl pre.length)]
      simp
    simp only [List.length_cons]
    rw [recoverFrom, hf]
    simp only
    rw [recoverSegment_ok pre.length rs idx
      (fun r hr => hok r (by rw [List.flatten_cons]; exact List.mem_append_left _ hr))]
    simp only
    have hall2 : all = (pre ++ [concatRecords rs]) ++ rest.map concatRecords := by
      rw [hall]; simp
    have ih2 := ih (pre ++ [concatRecords rs]) (replayIdx pre.length 0 rs idx).1 hall2
      (fun r hr => hok r (by rw [List.flatten_cons]; exact List.mem_append_right _ hr))
    rw [List.length_append, List.length_singleton] at ih2
    rw [ih2, replaySegsIdx]
    simp

/-- Replaying the canonical directory when some record of some segment
exceeds the recovery buffer fails with the "corrupted file" error. -/
theorem recoverFrom_dirOf_big (all : List Bytes) (rss : List (List Rec)) :
    ∀ (pre : List Bytes) (idx : HashIndex), all = pre ++ rss.map concatRecords →
    (∀ r ∈ rss.flatten, sizeOk r.1 r.2) →
    (∃ r ∈ rss.flatten, recoverbufferSize < recSize r) →
    recoverFrom (dirOf all) pre.length rss.length idx = .error .corruptedFile := by
  induction rss with
  | nil =>
    intro pre idx _ _ hbig
    obtain ⟨r, hr, _⟩ := hbig
    exact absurd hr (List.not_mem_nil r)
  | cons rs rest ih =>
    intro pre idx hall hok hbig
    have hf : findFile (dirOf all) (segFileName pre.length) = some (concatRecords rs) := by
      rw [findFile_dirOf all pre.length, hall, List.get?_eq_getElem?,
        List.getElem?_append_right (le_refl pre.length)]
      simp
    simp only [List.length_cons]
    rw [recoverFrom, hf]
    simp only
    by_cases hb : ∃ r ∈ rs, recoverbufferSize < recSize r
    · rw [recoverSegment_big pre.length rs idx
        (fun r hr => (hok r (by rw [List.flatten_cons]; exact List.mem_append_left _ hr)))
        hb]
    · push_neg at hb
      rw [recoverSegment_ok pre.length rs idx
        (fun r hr => ⟨hok r (by rw [List.flatten_cons]; exact List.mem_append_left _ hr),
          hb r hr⟩)]
      simp only
      have hall2 : all = (pre ++ [concatRecords rs]) ++ rest.map concatRecords := by
        rw [hall]; simp
      have hbig2 : ∃ r ∈ rest.flatten, recoverbufferSize < recSize r := by
        obtain ⟨r, hr, hrb⟩ := hbig
        rw [List.flatten_cons] at hr
        rcases List.mem_append.mp hr with h1 | h2
        · exact absurd hrb (by have := hb r h1; omega)
        · exact ⟨r, h2, hrb⟩
      have ih2 := ih (pre ++ [concatRecords rs]) (replayIdx pre.length 0 rs idx).1 hall2
        (fun r hr => hok r (by rw [List.flatten_cons]; exact List.mem_append_right _ hr))
        hbig2
      rw [List.length_append, List.length_singleton] at ih2
      rw [ih2]


/-! ### `NewDb` on a canonical directory of record logs -/

/-- `NewDb` over the canonical directory of a nonempty segment list rebuilds
the replay index and loads the highest segment with a zeroed offset. -/
theorem newDb_dirOf_ok (rss : List (List Rec)) (S : Nat) (hne : rss ≠ [])
    (hlen : rss.length ≤ 2 ^ 63)
    (hok : ∀ r ∈ rss.flatten, sizeOk r.1 r.2 ∧ recSize r ≤ recoverbufferSize) :
    newDb (dirOf (rss.map concatRecords)) S =
      .ok { files := rss.map concatRecords, segmentOffset := 0,
            segmentIndex := rss.length - 1, maxSegmentSize := S,
            index := replaySegsIdx rss 0 [], isClosed := false, wqClosed := false } := by
  have hlen1 : 1 ≤ rss.length := by
    cases rss with
    | nil => exact absurd rfl hne
    | cons a b => simp
  have hmap : (dirOf (rss.map concatRecords)).map (fun f => f.name) =
      (dirOfAux (rss.map concatRecords) 0).map (fun f => f.name) := rfl
  rw [newDb, recoverSegmentIndex, hmap,
    recoverSegmentIndexAux_dirOfAux (rss.map concatRecords) 0 (-1) (by norm_num)
      (by simpa using hlen)]
  have hie : (rss.map concatRecords).isEmpty = false := by
    cases rss with
    | nil => exact absurd rfl hne
    | cons a b => rfl
  rw [hie, if_neg Bool.false_ne_true]
  simp only [List.length_map, Nat.cast_zero, zero_add]
  rw [if_neg (by omega)]
  rw [show ((rss.length : Int) - 1).toNat = rss.length - 1 from by omega,
    show rss.length - 1 + 1 = rss.length from by omega]
  have hrec := recoverFrom_dirOf_ok (rss.map concatRecords) rss [] [] (by simp) hok
  simp only [List.length_nil] at hrec
  rw [hrec]

/-- `NewDb` over the canonical directory of segments one of whose records is
larger than the 8192-byte recovery buffer fails with "corrupted file". -/
theorem newDb_dirOf_big (rss : List (List Rec)) (S : Nat)
    (hlen : rss.length ≤ 2 ^ 63)
    (hok : ∀ r ∈ rss.flatten, sizeOk r.1 r.2)
    (hbig : ∃ r ∈ rss.flatten, recoverbufferSize < recSize r) :
    newDb (dirOf (rss.map concatRecords)) S = .error .corruptedFile := by
  have hne : rss ≠ [] := by
    obtain ⟨r, hr, _⟩ := hbig
    intro h
    subst h
    exact absurd hr (List.not_mem_nil r)
  have hlen1 : 1 ≤ rss.length := by
    cases rss with
    | nil => exact absurd rfl hne
    | cons a b => simp
  have hmap : (dirOf (rss.map concatRecords)).map (fun f => f.name) =
      (dirOfAux (rss.map concatRecords) 0).map (fun f => f.name) := rfl
  rw [newDb, recoverSegmentIndex, hmap,
    recoverSegmentIndexAux_dirOfAux (rss.map concatRecords) 0 (-1) (by norm_num)
      (by simpa using hlen)]
  have hie : (rss.map concatRecords).isEmpty = false := by
    cases rss with
    | nil => exact absurd rfl hne
    | cons a b => rfl
  rw [hie, if_neg Bool.false_ne_true]
  simp only [List.length_map, Nat.cast_zero, zero_add]
  rw [if_neg (by omega)]
  rw [show ((rss.length : Int) - 1).toNat = rss.length - 1 from by omega,
    show rss.length - 1 + 1 = rss.length from by omega]
  have hrec := recoverFrom_dirOf_big (rss.map concatRecords) rss [] [] (by simp) hok hbig
  simp only [List.length_nil] at hrec
  rw [hrec]

/-- Claim C10: recovery reads each record through a fixed 8192-byte peek
buffer. For every directory of well-formed segments, `NewDb` succeeds when
every record's `total_size` is at most 8192 bytes, and fails with the
"corrupted file" error as soon as any record's `total_size` exceeds 8192
bytes — records of at most 8192 bytes are the only ones recovery can
replay. -/
theorem claim_c10_recovery_buffer_limit (rss : List (List Rec)) (S : Nat)
    (hlen : rss.length ≤ 2 ^ 63)
    (hok : ∀ r ∈ rss.flatten, sizeOk r.1 r.2) :
    ((∀ r ∈ rss.flatten, recSize r ≤ 8192) →
      ∃ db, newDb (dirOf (rss.map concatRecords)) S = .ok db) ∧
    ((∃ r ∈ rss.flatten, 8192 < recSize r) →
      newDb (dirOf (rss.map concatRecords)) S = .error .corruptedFile) := by
  constructor
  · intro hsmall
    by_cases hne : rss = []
    · subst hne
      exact ⟨freshDb S, newDb_nil S⟩
    · exact ⟨_, newDb_dirOf_ok rss S hne hlen (fun r hr => ⟨hok r hr, hsmall r hr⟩)⟩
  · intro hbig
    exact newDb_dirOf_big rss S hlen hok hbig

theorem claim_c10_recovery_buffer_limit_witness :
    (∃ db, newDb (dirOf [concatRecords [([1], [2])]]) 1024 = .ok db) ∧
    newDb (dirOf [concatRecords [([1], List.replicate 8181 7)]]) 1024 =
      .error .corruptedFile := by
  constructor
  · refine ((claim_c10_recovery_buffer_limit [[([1], [2])]] 1024 (by norm_num)
      (by decide)).1 (by decide))
  · refine (claim_c10_recovery_buffer_limit [[([1], List.replicate 8181 7)]] 1024
      (by norm_num) ?_).2 ?_
    · intro r hr
      simp only [List.flatten_cons, List.flatten_nil, List.append_nil,
        List.mem_singleton] at hr
      subst hr
      unfold sizeOk
      simp only [List.length_cons, List.length_nil, List.length_replicate]
      norm_num
    · refine ⟨([1], List.replicate 8181 7), List.mem_cons_self _ _, ?_⟩
      unfold recSize
      simp only [List.length_cons, List.length_nil, List.length_replicate]
      norm_num


/-! ### The writer invariant: `Put` preserves `INV` -/

theorem concatRecords_singleton (r : Rec) :
    concatRecords [r] = encodeRecord r.1 r.2 := by
  simp [concatRecords]

theorem replayIdx_snd (segId : Nat) (rs : List Rec) :
    ∀ p idx, (replayIdx segId p rs idx).2 = p + totalSize rs := by
  induction rs with
  | nil => intro p idx; simp [replayIdx, totalSize]
  | cons r rest ih =>
    intro p idx
    rw [replayIdx, ih]
    unfold totalSize
    simp only [List.map_cons, List.sum_cons]
    omega

theorem replayIdx_append (segId : Nat) (rs : List Rec) (r : Rec) :
    ∀ p idx, replayIdx segId p (rs ++ [r]) idx =
      ((idxSet (replayIdx segId p rs idx).1 r.1 (segId, (replayIdx segId p rs idx).2)),
        (replayIdx segId p rs idx).2 + recSize r) := by
  induction rs with
  | nil => intro p idx; simp [replayIdx]
  | cons r2 rest ih =>
    intro p idx
    rw [List.cons_append, replayIdx, ih, replayIdx]

theorem replaySegsIdx_append (xs : List (List Rec)) (rs : List Rec) :
    ∀ i idx, replaySegsIdx (xs ++ [rs]) i idx =
      (replayIdx (i + xs.length) 0 rs (replaySegsIdx xs i idx)).1 := by
  induction xs with
  | nil => intro i idx; simp [replaySegsIdx]
  | cons x rest ih =>
    intro i idx
    rw [List.cons_append, replaySegsIdx, ih, replaySegsIdx]
    simp only [List.length_cons]
    rw [show i + (rest.length + 1) = i + 1 + rest.length from by omega]

theorem set_append_len {α : Type} (l : List α) (x y : α) :
    (l ++ [x]).set l.length y = l ++ [y] := by
  simp

theorem getD_append_len {α : Type} (l : List α) (x d : α) :
    (l ++ [x]).getD l.length d = x := by
  simp

/-- The fresh store satisfies the writer invariant with one empty segment. -/
theorem freshDb_INV (S : Nat) : INV (freshDb S) [[]] := by
  refine ⟨rfl, rfl, rfl, rfl, ?_, rfl, rfl⟩
  intro r hr
  simp only [List.flatten_cons, List.flatten_nil, List.append_nil] at hr
  exact absurd hr (List.not_mem_nil r)

/-- A successful `Put` extends the active segment's record list (and appends a
fresh empty segment on rollover), preserving the writer invariant. -/
theorem put_INV (db : Db) (rss : List (List Rec)) (k v : Bytes)
    (hinv : INV db rss) (hsz : sizeOk k v) :
    (Put db k v false).2 = none ∧
    ∃ rss2, INV (Put db k v false).1 rss2 ∧
      rss2.flatten = rss.flatten ++ [(k, v)] ∧
      rss2.length ≤ rss.length + 1 := by
  obtain ⟨hfiles, hlen, hoff, hidx, hszs, hopen, hwq⟩ := hinv
  obtain ⟨init, last, rfl⟩ : ∃ init last, rss = init ++ [last] := by
    rcases List.eq_nil_or_concat rss with h1 | ⟨L, b, h1⟩
    · rw [h1] at hlen
      simp at hlen
    · exact ⟨L, b, by simpa [List.concat_eq_append] using h1⟩
  have hseg : db.segmentIndex = init.length := by
    simp only [List.length_append, List.length_singleton] at hlen
    omega
  have hoff2 : db.segmentOffset = (concatRecords last).length := by
    rw [hoff, List.getLastD_concat]
  have hfiles2 : db.files = init.map concatRecords ++ [concatRecords last] := by
    rw [hfiles]
    simp
  have hgetD : db.files.getD db.segmentIndex [] = concatRecords last := by
    rw [hfiles2, hseg, show init.length = (init.map concatRecords).length from by simp,
      getD_append_len]
  have hset : db.files.set db.segmentIndex
      ((db.files.getD db.segmentIndex []) ++ encodeRecord k v) =
      (init ++ [last ++ [(k, v)]]).map concatRecords := by
    rw [hgetD, hfiles2, hseg, show init.length = (init.map concatRecords).length from by simp,
      set_append_len]
    rw [show concatRecords last ++ encodeRecord k v = concatRecords (last ++ [(k, v)]) from by
      rw [concatRecords_append, concatRecords_singleton]]
    simp
  have hidx2 : idxSet db.index k (db.segmentIndex, db.segmentOffset) =
      replaySegsIdx (init ++ [last ++ [(k, v)]]) 0 [] := by
    rw [hidx, replaySegsIdx_append, replaySegsIdx_append, replayIdx_append, hseg, hoff2,
      replayIdx_snd, concatRecords_length]
    simp
  have hsz2 : ∀ r ∈ (init ++ [last ++ [(k, v)]]).flatten, sizeOk r.1 r.2 := by
    intro r hr
    rw [show (init ++ [last ++ [(k, v)]]).flatten = (init ++ [last]).flatten ++ [(k, v)]
      from by simp] at hr
    rcases List.mem_append.mp hr with h1 | h2
    · exact hszs r h1
    · rw [List.mem_singleton] at h2
      subst h2
      exact hsz
  rw [Put, if_neg (by rw [hopen]; exact Bool.false_ne_true), writeStep, encode, if_pos hsz]
  simp only [Bool.false_eq_true, if_false]
  by_cases hro : db.maxSegmentSize ≤ db.segmentOffset + (encodeRecord k v).length
  · rw [if_pos hro]
    have heq : init ++ [last ++ [(k, v)], ([] : List Rec)] =
        (init ++ [last ++ [(k, v)]]) ++ [[]] := by
      simp
    refine ⟨rfl, init ++ [last ++ [(k, v)], []], ?_, ?_, ?_⟩
    · refine ⟨?_, ?_, ?_, ?_, ?_, hopen, hwq⟩
      · simp only
        rw [hset, heq]
        simp [concatRecords_nil]
      · simp only [List.length_append, List.length_singleton] at hlen
        simp
        omega
      · rw [heq, List.getLastD_concat]
        rfl
      · simp only
        rw [heq, replaySegsIdx_append, hidx2]
        rfl
      · intro r hr
        rw [show (init ++ [last ++ [(k, v)], ([] : List Rec)]).flatten =
          (init ++ [last ++ [(k, v)]]).flatten from by simp] at hr
        exact hsz2 r hr
    · simp
    · simp
  · rw [if_neg hro]
    refine ⟨rfl, init ++ [last ++ [(k, v)]], ?_, ?_, ?_⟩
    · refine ⟨?_, ?_, ?_, ?_, hsz2, hopen, hwq⟩
      · simp only
        exact hset
      · simp only [List.length_append, List.length_singleton] at hlen
        simp
        omega
      · simp only [List.getLastD_concat]
        rw [concatRecords_append, concatRecords_singleton, hoff2]
        simp
      · simp only
        exact hidx2
    · simp
    · simp


/-- Running a sequence of encodable `Put`s from any invariant state succeeds
and extends the flattened record log by exactly that sequence. -/
theorem runPuts_INV (ps : List Rec) :
    ∀ (db : Db) (rss : List (List Rec)), INV db rss → (∀ r ∈ ps, sizeOk r.1 r.2) →
    runPutsOk db ps = true ∧
    ∃ rss2, INV (runPuts db ps) rss2 ∧ rss2.flatten = rss.flatten ++ ps ∧
      rss2.length ≤ rss.length + ps.length := by
  induction ps with
  | nil =>
    intro db rss hinv _
    exact ⟨rfl, rss, hinv, by simp, by simp⟩
  | cons r rest ih =>
    intro db rss hinv hsz
    obtain ⟨k, v⟩ := r
    obtain ⟨hok, rss1, hinv1, hflat1, hlen1⟩ :=
      put_INV db rss k v hinv (hsz (k, v) (List.mem_cons_self _ _))
    obtain ⟨hok2, rss2, hinv2, hflat2, hlen2⟩ :=
      ih (Put db k v false).1 rss1 hinv1 (fun r hr => hsz r (List.mem_cons_of_mem _ hr))
    refine ⟨?_, rss2, ?_, ?_, ?_⟩
    · rw [runPutsOk]
      obtain ⟨d, hd⟩ : ∃ d, Put db k v false = (d, none) := by
        cases hput : Put db k v false with
        | mk d e =>
          rw [hput] at hok
          simp only at hok
          subst hok
          exact ⟨d, rfl⟩
      rw [hd]
      rw [hd] at hok2
      exact hok2
    · have : runPuts db ((k, v) :: rest) = runPuts (Put db k v false).1 rest := by
        rw [runPuts, runPuts, List.foldl_cons]
      rw [this]
      exact hinv2
    · rw [hflat2, hflat1]
      simp
    · simp only [List.length_cons]
      omega

/-! ### Lookup semantics of the replayed index -/

theorem idxGet_nil (k : Bytes) : idxGet [] k = none := rfl

theorem replayIdx_lookup (segId : Nat) (rs : List Rec) :
    ∀ (p : Nat) (idx : HashIndex) (k : Bytes),
    idxGet (replayIdx segId p rs idx).1 k =
      match findLastPos rs k with
      | some x => some (segId, p + x.1)
      | none => idxGet idx k := by
  induction rs with
  | nil => intro p idx k; rfl
  | cons r rest ih =>
    intro p idx k
    obtain ⟨k2, v2⟩ := r
    rw [replayIdx, ih, findLastPos]
    cases hf : findLastPos rest k with
    | some x =>
      simp only
      rw [Nat.add_assoc]
    | none =>
      simp only [idxGet_idxSet]
      by_cases hk : k2 = k
      · rw [if_pos hk, if_pos hk]
        simp
      · rw [if_neg hk, if_neg hk]

theorem replaySegsIdx_lookup (rss : List (List Rec)) :
    ∀ (i : Nat) (idx : HashIndex) (k : Bytes),
    idxGet (replaySegsIdx rss i idx) k =
      match findLastSeg rss k with
      | some x => some (i + x.1, x.2.1)
      | none => idxGet idx k := by
  induction rss with
  | nil => intro i idx k; rfl
  | cons rs rest ih =>
    intro i idx k
    rw [replaySegsIdx, ih, findLastSeg]
    cases hf : findLastSeg rest k with
    | some x =>
      simp only
      rw [show i + 1 + x.1 = i + (x.1 + 1) from by omega]
    | none =>
      simp only [replayIdx_lookup]
      cases hp : findLastPos rs k with
      | some y => simp
      | none => simp

theorem findLastPos_drop (rs : List Rec) (k : Bytes) :
    ∀ off v, findLastPos rs k = some (off, v) →
    (k, v) ∈ rs ∧ ∃ tail, (concatRecords rs).drop off = encodeRecord k v ++ tail := by
  induction rs with
  | nil => intro off v h; exact absurd h (by rw [findLastPos]; simp)
  | cons r rest ih =>
    intro off v h
    obtain ⟨k2, v2⟩ := r
    rw [findLastPos] at h
    cases hf : findLastPos rest k with
    | some x =>
      rw [hf] at h
      rw [Option.some_inj, Prod.mk.injEq] at h
      obtain ⟨hoff, hv⟩ := h
      obtain ⟨hmem, tail, htail⟩ := ih x.1 x.2 (by rw [hf])
      subst hv
      refine ⟨List.mem_cons_of_mem _ hmem, tail, ?_⟩
      rw [← hoff, concatRecords_cons]
      show (encodeRecord k2 v2 ++ concatRecords rest).drop (recSize (k2, v2) + x.1) =
        encodeRecord k x.2 ++ tail
      rw [show recSize (k2, v2) + x.1 = (encodeRecord k2 v2).length + x.1 from by
        rw [encodeRecord_length]; rfl]
      rw [← List.drop_drop, List.drop_left]
      exact htail
    | none =>
      rw [hf] at h
      by_cases hk : k2 = k
      · rw [if_pos hk] at h
        rw [Option.some_inj, Prod.mk.injEq] at h
        obtain ⟨hoff, hv⟩ := h
        subst hk
        subst hv
        rw [← hoff]
        refine ⟨List.mem_cons_self _ _, concatRecords rest, ?_⟩
        rw [concatRecords_cons, List.drop_zero]
      · rw [if_neg hk] at h
        exact absurd h (by simp)


theorem findLastSeg_spec (rss : List (List Rec)) (k : Bytes) :
    ∀ j off v, findLastSeg rss k = some (j, off, v) →
    j < rss.length ∧ (k, v) ∈ rss.flatten ∧
    ∃ tail, (concatRecords (rss.getD j [])).drop off = encodeRecord k v ++ tail := by
  induction rss with
  | nil => intro j off v h; exact absurd h (by rw [findLastSeg]; simp)
  | cons rs rest ih =>
    intro j off v h
    rw [findLastSeg] at h
    cases hf : findLastSeg rest k with
    | some x =>
      rw [hf] at h
      simp only [Option.some_inj] at h
      rw [Prod.mk.injEq, Prod.mk.injEq] at h
      obtain ⟨hj, hoff, hv⟩ := h
      obtain ⟨h1, h2, tail, h3⟩ := ih x.1 x.2.1 x.2.2 (by rw [hf])
      subst hj
      subst hoff
      subst hv
      refine ⟨by simp only [List.length_cons]; omega, ?_, ?_⟩
      · rw [List.flatten_cons]
        exact List.mem_append_right _ h2
      · exact ⟨tail, h3⟩
    | none =>
      rw [hf] at h
      rw [Option.map_eq_some'] at h
      obtain ⟨a, ha, hav⟩ := h
      rw [Prod.mk.injEq] at hav
      obtain ⟨haj, hax⟩ := hav
      rw [Prod.mk.injEq] at hax
      obtain ⟨hoff, hv⟩ := hax
      obtain ⟨hmem, tail, htail⟩ := findLastPos_drop rs k a.1 a.2 (by rw [ha])
      subst hoff
      subst hv
      refine ⟨by rw [← haj]; simp, ?_, ?_⟩
      · rw [List.flatten_cons]
        exact List.mem_append_left _ hmem
      · rw [← haj]
        exact ⟨tail, htail⟩

theorem lastVal_append (xs ys : List Rec) (k : Bytes) :
    lastVal (xs ++ ys) k =
      match lastVal ys k with
      | some v => some v
      | none => lastVal xs k := by
  induction xs with
  | nil =>
    rw [List.nil_append]
    cases lastVal ys k <;> rfl
  | cons r rest ih =>
    obtain ⟨k2, v2⟩ := r
    rw [List.cons_append, lastVal, ih, lastVal]
    cases lastVal ys k with
    | some v => rfl
    | none => rfl

theorem findLastPos_lastVal (rs : List Rec) (k : Bytes) :
    (findLastPos rs k).map (fun x => x.2) = lastVal rs k := by
  induction rs with
  | nil => rfl
  | cons r rest ih =>
    obtain ⟨k2, v2⟩ := r
    rw [findLastPos, lastVal, ← ih]
    cases findLastPos rest k with
    | some x => rfl
    | none =>
      simp only [Option.map_none']
      by_cases hk : k2 = k
      · rw [if_pos hk, if_pos hk]
        rfl
      · rw [if_neg hk, if_neg hk]
        rfl

theorem findLastSeg_lastVal (rss : List (List Rec)) (k : Bytes) :
    (findLastSeg rss k).map (fun x => x.2.2) = lastVal rss.flatten k := by
  induction rss with
  | nil => rfl
  | cons rs rest ih =>
    rw [findLastSeg, List.flatten_cons, lastVal_append, ← ih]
    cases findLastSeg rest k with
    | some x => rfl
    | none =>
      simp only [Option.map_none']
      rw [← findLastPos_lastVal]
      cases findLastPos rs k with
      | some y => rfl
      | none => rfl

/-- `Db.get` on an invariant state returns exactly the last written value. -/
theorem getDb_INV (db : Db) (rss : List (List Rec)) (hinv : INV db rss) (k : Bytes) :
    getDb db k =
      match lastVal rss.flatten k with
      | some v => .ok v
      | none => .error .notFound := by
  rw [getDb, hinv.hopen, if_neg Bool.false_ne_true, hinv.hidx, replaySegsIdx_lookup,
    ← findLastSeg_lastVal]
  cases hf : findLastSeg rss k with
  | none => rfl
  | some x =>
    obtain ⟨j, off, v⟩ := x
    obtain ⟨hj, hmem, tail, hdrop⟩ := findLastSeg_spec rss k j off v hf
    simp only [Nat.zero_add, Option.map_some']
    rw [hinv.hfiles, List.get?_eq_getElem?, List.getElem?_map]
    rw [show rss[j]? = some (rss.getD j []) from by
      rw [List.getElem?_eq_getElem hj, List.getD_eq_getElem _ _ hj]]
    simp only [Option.map_some']
    rw [readValueAt_of_drop _ off k v tail (hinv.hsz (k, v) hmem) hdrop]

/-- `Db.Get` on an invariant state returns exactly the last written value. -/
theorem Get_INV (db : Db) (rss : List (List Rec)) (hinv : INV db rss) (k : Bytes) :
    Get db k =
      match lastVal rss.flatten k with
      | some v => .ok v
      | none => .error .notFound := by
  rw [Get, hinv.hwq, if_neg Bool.false_ne_true]
  exact getDb_INV db rss hinv k


/-! ### Claim C1 (last-writer-wins reads) -/

/-- Claim C1: on a freshly opened store, every sequence of encodable `Put`s
succeeds, and `Get k` then returns the value of the last `Put` whose key was
`k` (`lastVal ps k`), for every key `k` that was written. -/
theorem claim_c1_last_writer_wins (S : Nat) (ps : List Rec) (db0 : Db) (k v : Bytes)
    (hopen : newDb [] S = .ok db0)
    (hsz : ∀ r ∈ ps, sizeOk r.1 r.2)
    (hlast : lastVal ps k = some v) :
    runPutsOk db0 ps = true ∧ Get (runPuts db0 ps) k = .ok v := by
  have hdb0 : db0 = freshDb S := by
    rw [newDb_nil] at hopen
    exact (Except.ok.inj hopen).symm
  subst hdb0
  obtain ⟨hok, rss2, hinv2, hflat2, _⟩ := runPuts_INV ps (freshDb S) [[]] (freshDb_INV S) hsz
  refine ⟨hok, ?_⟩
  rw [Get_INV _ rss2 hinv2 k, hflat2,
    show ([[]] : List (List Rec)).flatten ++ ps = ps from by simp, hlast]

theorem claim_c1_last_writer_wins_witness :
    runPutsOk (freshDb 1024) [([1], [2]), ([1], [3])] = true ∧
    Get (runPuts (freshDb 1024) [([1], [2]), ([1], [3])]) [1] = .ok [3] :=
  claim_c1_last_writer_wins 1024 [([1], [2]), ([1], [3])] (freshDb 1024) [1] [3]
    (newDb_nil 1024) (by decide) (by decide)

/-! ### Claim C6 (segment rollover) -/

theorem totalSize_cons (r : Rec) (ps : List Rec) :
    totalSize (r :: ps) = recSize r + totalSize ps := by
  simp [totalSize]

/-- The state after one successful `Put`: either the offset reached the
threshold and the writer rolled over, or it did not and the offset advanced. -/
theorem put_cases (db : Db) (k v : Bytes) (hopen : db.isClosed = false)
    (hsz : sizeOk k v) :
    (Put db k v false).1.isClosed = false ∧
    (Put db k v false).1.maxSegmentSize = db.maxSegmentSize ∧
    ((db.maxSegmentSize ≤ db.segmentOffset + recSize (k, v) ∧
        (Put db k v false).1.segmentIndex = db.segmentIndex + 1 ∧
        (Put db k v false).1.segmentOffset = 0) ∨
      (¬ db.maxSegmentSize ≤ db.segmentOffset + recSize (k, v) ∧
        (Put db k v false).1.segmentIndex = db.segmentIndex ∧
        (Put db k v false).1.segmentOffset = db.segmentOffset + recSize (k, v))) := by
  have hrec : (encodeRecord k v).length = recSize (k, v) := encodeRecord_length k v
  rw [Put, if_neg (by rw [hopen]; exact Bool.false_ne_true), writeStep, encode, if_pos hsz]
  simp only [Bool.false_eq_true, if_false]
  by_cases hro : db.maxSegmentSize ≤ db.segmentOffset + (encodeRecord k v).length
  · rw [if_pos hro]
    exact ⟨hopen, rfl, Or.inl ⟨by rw [← hrec]; exact hro, rfl, rfl⟩⟩
  · rw [if_neg hro]
    exact ⟨hopen, rfl, Or.inr ⟨by rw [← hrec]; exact hro, rfl, by rw [← hrec]⟩⟩

/-- Along a successful put sequence the segment id never decreases, and if it
never changed then the offset accumulated the whole encoded size and stayed
below the threshold. -/
theorem runPuts_rollover (ps : List Rec) :
    ∀ db : Db, db.isClosed = false → (∀ r ∈ ps, sizeOk r.1 r.2) →
    db.segmentIndex ≤ (runPuts db ps).segmentIndex ∧
    (runPuts db ps).maxSegmentSize = db.maxSegmentSize ∧
    (runPuts db ps).isClosed = false ∧
    ((runPuts db ps).segmentIndex = db.segmentIndex →
      (runPuts db ps).segmentOffset = db.segmentOffset + totalSize ps ∧
      (ps = [] ∨ (runPuts db ps).segmentOffset < db.maxSegmentSize)) := by
  induction ps with
  | nil =>
    intro db hopen _
    exact ⟨le_refl _, rfl, hopen, fun _ => ⟨by simp [totalSize, runPuts], Or.inl rfl⟩⟩
  | cons r rest ih =>
    intro db hopen hsz
    obtain ⟨k, v⟩ := r
    have hrun : runPuts db ((k, v) :: rest) = runPuts (Put db k v false).1 rest := by
      rw [runPuts, runPuts, List.foldl_cons]
    obtain ⟨hcl, hmax, hcase⟩ := put_cases db k v hopen (hsz (k, v) (List.mem_cons_self _ _))
    obtain ⟨ihmono, ihmax, ihcl, ihoff⟩ :=
      ih (Put db k v false).1 hcl (fun r hr => hsz r (List.mem_cons_of_mem _ hr))
    rw [hrun]
    rcases hcase with ⟨hro, hidx, hoff⟩ | ⟨hro, hidx, hoff⟩
    · refine ⟨by omega, by rw [ihmax, hmax], ihcl, fun hfin => absurd hfin (by omega)⟩
    · refine ⟨by omega, by rw [ihmax, hmax], ihcl, fun hfin => ?_⟩
      obtain ⟨hoff2, hlt⟩ := ihoff (by omega)
      refine ⟨by rw [hoff2, hoff, totalSize_cons]; omega, Or.inr ?_⟩
      rcases hlt with hrest | hlt
      · subst hrest
        rw [hoff2, hoff]
        simp only [totalSize, List.map_nil, List.sum_nil, Nat.add_zero]
        rw [← hmax]
        omega
      · rw [← hmax]
        omega

/-- Claim C6: a successful `Put` that brings the tracked offset to the
configured maximum segment size closes the segment, increments the segment id,
opens a fresh empty active segment and resets the offset to zero; consequently
a fresh store that receives puts whose cumulative encoded size exceeds the
threshold ends up with at least two segment files. -/
theorem claim_c6_segment_rollover :
    (∀ (db : Db) (k v : Bytes), db.isClosed = false → sizeOk k v →
      db.maxSegmentSize ≤ db.segmentOffset + (encodeRecord k v).length →
      Put db k v false =
        ({ db with
            files := db.files.set db.segmentIndex
              ((db.files.getD db.segmentIndex []) ++ encodeRecord k v) ++ [[]],
            index := idxSet db.index k (db.segmentIndex, db.segmentOffset),
            segmentIndex := db.segmentIndex + 1,
            segmentOffset := 0 }, none)) ∧
    (∀ (S : Nat) (ps : List Rec) (db0 : Db), newDb [] S = .ok db0 →
      (∀ r ∈ ps, sizeOk r.1 r.2) → S < totalSize ps →
      2 ≤ (runPuts db0 ps).files.length) := by
  constructor
  · intro db k v hopen hsz hro
    rw [Put, if_neg (by rw [hopen]; exact Bool.false_ne_true), writeStep, encode,
      if_pos hsz]
    simp only [Bool.false_eq_true, if_false]
    rw [if_pos hro]
  · intro S ps db0 hopen hsz htot
    have hdb0 : db0 = freshDb S := by
      rw [newDb_nil] at hopen
      exact (Except.ok.inj hopen).symm
    subst hdb0
    obtain ⟨_, rss2, hinv2, _, _⟩ := runPuts_INV ps (freshDb S) [[]] (freshDb_INV S) hsz
    obtain ⟨hmono, hmax, _, hoff⟩ := runPuts_rollover ps (freshDb S) rfl hsz
    have hfl : (runPuts (freshDb S) ps).files.length = rss2.length := by
      rw [hinv2.hfiles, List.length_map]
    have hlen := hinv2.hlen
    by_cases hseg : (runPuts (freshDb S) ps).segmentIndex = 0
    · obtain ⟨hoff2, hlt⟩ := hoff (by rw [hseg]; rfl)
      rcases hlt with hps | hlt
      · subst hps
        simp only [totalSize, List.map_nil, List.sum_nil] at htot
        omega
      · rw [hoff2] at hlt
        have hS : (freshDb S).maxSegmentSize = S := rfl
        have hO : (freshDb S).segmentOffset = 0 := rfl
        rw [hS, hO] at hlt
        omega
    · have : (freshDb S).segmentIndex = 0 := rfl
      omega

theorem claim_c6_segment_rollover_witness :
    Put (freshDb 10) [1] [2] false =
      ({ freshDb 10 with
          files := [encodeRecord [1] [2], []],
          index := [([1], (0, 0))],
          segmentIndex := 1,
          segmentOffset := 0 }, none) ∧
    2 ≤ (runPuts (freshDb 10) [([1], [2])]).files.length := by
  constructor
  · have h := claim_c6_segment_rollover.1 (freshDb 10) [1] [2] rfl (by decide)
      (by rw [encodeRecord_length]; decide)
    rw [h]
    rfl
  · exact claim_c6_segment_rollover.2 10 [([1], [2])] (freshDb 10) (newDb_nil 10)
      (by decide) (by decide)


/-! ### Claim C3 (merge compaction) -/

theorem idxGet_eq_none_iff (idx : HashIndex) (k : Bytes) :
    idxGet idx k = none ↔ k ∉ idx.map Prod.fst := by
  induction idx with
  | nil => simp [idxGet]
  | cons ent rest ih =>
    obtain ⟨k2, e2⟩ := ent
    rw [idxGet]
    by_cases hk : k2 = k
    · rw [if_pos hk]
      simp [hk]
    · rw [if_neg hk]
      simp only [List.map_cons, List.mem_cons]
      rw [ih]
      constructor
      · intro h hh
        rcases hh with h1 | h2
        · exact hk h1.symm
        · exact h h2
      · intro h hh
        exact h (Or.inr hh)

theorem findLastPos_eq_none_iff (rs : List Rec) (k : Bytes) :
    findLastPos rs k = none ↔ k ∉ rs.map Prod.fst := by
  induction rs with
  | nil => simp [findLastPos]
  | cons r rest ih =>
    obtain ⟨k2, v2⟩ := r
    rw [findLastPos]
    cases hf : findLastPos rest k with
    | some x =>
      simp only
      constructor
      · intro h
        exact absurd h (by simp)
      · intro h
        exfalso
        have hm := (findLastPos_drop rest k x.1 x.2 (by rw [hf])).1
        refine h ?_
        simp only [List.map_cons, List.mem_cons]
        exact Or.inr (List.mem_map_of_mem Prod.fst hm)
    | none =>
      simp only
      by_cases hk : k2 = k
      · rw [if_pos hk]
        simp [hk]
      · rw [if_neg hk]
        simp only [List.map_cons, List.mem_cons]
        constructor
        · intro _ hh
          rcases hh with h1 | h2
          · exact hk h1.symm
          · exact (ih.mp hf) h2
        · intro _
          trivial

/-- Every key present in the index resolves through `Db.get` to its current
value on an invariant state. -/
theorem getDb_ok_of_mem_index (db : Db) (rss : List (List Rec)) (hinv : INV db rss)
    (k : Bytes) (hmem : k ∈ db.index.map Prod.fst) :
    ∃ v, getDb db k = .ok v ∧ sizeOk k v := by
  have hns : ¬ idxGet db.index k = none := by
    rw [idxGet_eq_none_iff]
    exact fun h => h hmem
  rw [hinv.hidx, replaySegsIdx_lookup] at hns
  cases hf : findLastSeg rss k with
  | none =>
    rw [hf] at hns
    exact absurd rfl hns
  | some x =>
    obtain ⟨j, off, v⟩ := x
    obtain ⟨_, hmem2, _⟩ := findLastSeg_spec rss k j off v hf
    refine ⟨v, ?_, hinv.hsz _ hmem2⟩
    rw [getDb_INV db rss hinv k, ← findLastSeg_lastVal, hf]
    rfl

/-- The loop of `Db.Copy` over index entries with readable keys: it returns
one fresh record per entry (in entry order) and the replayed index of those
records, appended to the swap contents. -/
theorem copyLoop_spec (db : Db) (entries : HashIndex) :
    ∀ (contents : Bytes) (newIdx : HashIndex),
    (∀ ent ∈ entries, ∃ v, getDb db ent.1 = .ok v ∧ sizeOk ent.1 v) →
    ∃ recs : List Rec,
      recs.map Prod.fst = entries.map Prod.fst ∧
      (∀ r ∈ recs, getDb db r.1 = .ok r.2 ∧ sizeOk r.1 r.2) ∧
      copyLoop db entries contents contents.length newIdx =
        .ok ((replayIdx 0 contents.length recs newIdx).2,
          (replayIdx 0 contents.length recs newIdx).1,
          contents ++ concatRecords recs) := by
  induction entries with
  | nil =>
    intro contents newIdx _
    exact ⟨[], rfl, by simp, by rw [copyLoop, replayIdx]; simp [concatRecords_nil]⟩
  | cons ent rest ih =>
    intro contents newIdx hread
    obtain ⟨k, e⟩ := ent
    obtain ⟨v, hget, hsz⟩ := hread (k, e) (List.mem_cons_self _ _)
    obtain ⟨recs, hkeys, hrecs, hloop⟩ := ih (contents ++ encodeRecord k v)
      (idxSet newIdx k (0, contents.length))
      (fun ent2 hm => hread ent2 (List.mem_cons_of_mem _ hm))
    refine ⟨(k, v) :: recs, by simp only [List.map_cons, hkeys], ?_, ?_⟩
    · intro r hr
      rcases List.mem_cons.mp hr with h1 | h2
      · subst h1
        exact ⟨hget, hsz⟩
      · exact hrecs r h2
    · rw [copyLoop, hget]
      simp only
      rw [show contents.length + (encodeRecord k v).length =
        (contents ++ encodeRecord k v).length from by simp]
      rw [hloop, replayIdx]
      rw [show contents.length + recSize (k, v) = (contents ++ encodeRecord k v).length
        from by rw [List.length_append, encodeRecord_length]; rfl]
      rw [concatRecords_cons, ← List.append_assoc]

/-- Reads against the compacted single-segment state agree with reads against
the pre-merge state. -/
theorem get_merged (db : Db) (recs : List Rec)
    (hwq : db.wqClosed = false) (hop : db.isClosed = false)
    (hrecs : ∀ r ∈ recs, getDb db r.1 = .ok r.2 ∧ sizeOk r.1 r.2)
    (hkeys : recs.map Prod.fst = db.index.map Prod.fst)
    (db2 : Db) (h2files : db2.files = [concatRecords recs])
    (h2idx : db2.index = (replayIdx 0 0 recs []).1)
    (h2wq : db2.wqClosed = false) (h2op : db2.isClosed = false) :
    ∀ k2, Get db2 k2 = Get db k2 := by
  intro k2
  have hRHS : Get db k2 = getDb db k2 := by
    rw [Get, hwq]
    rfl
  rw [hRHS, Get, h2wq, if_neg Bool.false_ne_true, getDb, h2op,
    if_neg Bool.false_ne_true, h2idx, h2files]
  rw [show idxGet (replayIdx 0 0 recs []).1 k2 =
      match findLastPos recs k2 with
      | some x => some (0, x.1)
      | none => none from by
    rw [replayIdx_lookup]
    cases findLastPos recs k2 with
    | some x => simp
    | none => rfl]
  cases hf : findLastPos recs k2 with
  | some x =>
    obtain ⟨hmem, tail, hdrop⟩ := findLastPos_drop recs k2 x.1 x.2 (by rw [hf])
    obtain ⟨hget, hsz⟩ := hrecs (k2, x.2) hmem
    simp only
    rw [show ([concatRecords recs] : List Bytes).get? 0 = some (concatRecords recs)
      from rfl]
    simp only
    rw [readValueAt_of_drop _ x.1 k2 x.2 tail hsz hdrop]
    exact hget.symm
  | none =>
    simp only
    have hnone : idxGet db.index k2 = none := by
      rw [idxGet_eq_none_iff, ← hkeys]
      exact (findLastPos_eq_none_iff recs k2).mp hf
    rw [getDb, hop, if_neg Bool.false_ne_true, hnone]

/-- `Merge` on an invariant state: the store collapses to the single segment
`0.seg` holding one fresh record per live key with its current value, and
`Get` is preserved for every key. -/
theorem merge_INV (db : Db) (rss : List (List Rec)) (hinv : INV db rss) :
    ∃ recs : List Rec,
      Merge db = .ok ({ db with
        files := [concatRecords recs],
        segmentIndex := 0,
        segmentOffset := (replayIdx 0 0 recs []).2,
        index := (replayIdx 0 0 recs []).1 }) ∧
      recs.map Prod.fst = db.index.map Prod.fst ∧
      (∀ r ∈ recs, getDb db r.1 = .ok r.2 ∧ sizeOk r.1 r.2) ∧
      (∀ k2, Get ({ db with
          files := [concatRecords recs],
          segmentIndex := 0,
          segmentOffset := (replayIdx 0 0 recs []).2,
          index := (replayIdx 0 0 recs []).1 }) k2 = Get db k2) := by
  obtain ⟨recs, hkeys, hrecs, hloop⟩ := copyLoop_spec db db.index [] []
    (fun ent hm => getDb_ok_of_mem_index db rss hinv ent.1
      (List.mem_map_of_mem Prod.fst hm))
  refine ⟨recs, ?_, hkeys, hrecs, ?_⟩
  · rw [Merge, if_neg (by rw [hinv.hopen]; exact Bool.false_ne_true), Copy]
    rw [show ([] : Bytes).length = 0 from rfl] at hloop
    rw [hloop]
    simp only [List.nil_append]
  · exact get_merged db recs hinv.hwq hinv.hopen hrecs hkeys _ rfl rfl hinv.hwq hinv.hopen


theorem mem_keys_idxSet (idx : HashIndex) (k : Bytes) (e : Nat × Nat) (k2 : Bytes) :
    k2 ∈ (idxSet idx k e).map Prod.fst ↔ k2 ∈ idx.map Prod.fst ∨ k2 = k := by
  induction idx with
  | nil => simp [idxSet]
  | cons ent rest ih =>
    obtain ⟨k3, e3⟩ := ent
    rw [idxSet]
    by_cases hk : k3 = k
    · rw [if_pos hk]
      subst hk
      simp only [List.map_cons, List.mem_cons]
      constructor
      · intro h
        rcases h with h | h
        · exact Or.inr h
        · exact Or.inl (Or.inr h)
      · intro h
        rcases h with (h | h) | h
        · exact Or.inl h
        · exact Or.inr h
        · exact Or.inl h
    · rw [if_neg hk]
      simp only [List.map_cons, List.mem_cons, ih]
      tauto

theorem nodup_keys_idxSet (idx : HashIndex) (k : Bytes) (e : Nat × Nat)
    (h : (idx.map Prod.fst).Nodup) : ((idxSet idx k e).map Prod.fst).Nodup := by
  induction idx with
  | nil => simp [idxSet]
  | cons ent rest ih =>
    obtain ⟨k3, e3⟩ := ent
    rw [List.map_cons, List.nodup_cons] at h
    rw [idxSet]
    by_cases hk : k3 = k
    · rw [if_pos hk]
      subst hk
      simp only [List.map_cons, List.nodup_cons]
      exact h
    · rw [if_neg hk]
      simp only [List.map_cons, List.nodup_cons]
      refine ⟨?_, ih h.2⟩
      rw [mem_keys_idxSet]
      intro hh
      rcases hh with hh | hh
      · exact h.1 hh
      · exact hk hh

theorem nodup_keys_replayIdx (segId : Nat) (rs : List Rec) :
    ∀ (p : Nat) (idx : HashIndex), (idx.map Prod.fst).Nodup →
    (((replayIdx segId p rs idx).1).map Prod.fst).Nodup := by
  induction rs with
  | nil => intro p idx h; exact h
  | cons r rest ih =>
    intro p idx h
    rw [replayIdx]
    exact ih _ _ (nodup_keys_idxSet idx r.1 (segId, p) h)

theorem nodup_keys_replaySegsIdx (rss : List (List Rec)) :
    ∀ (i : Nat) (idx : HashIndex), (idx.map Prod.fst).Nodup →
    ((replaySegsIdx rss i idx).map Prod.fst).Nodup := by
  induction rss with
  | nil => intro i idx h; exact h
  | cons rs rest ih =>
    intro i idx h
    rw [replaySegsIdx]
    exact ih _ _ (nodup_keys_replayIdx i rs 0 idx h)

/-- The index of an invariant state maps each live key once. -/
theorem INV_index_nodup (db : Db) (rss : List (List Rec)) (hinv : INV db rss) :
    (db.index.map Prod.fst).Nodup := by
  rw [hinv.hidx]
  exact nodup_keys_replaySegsIdx rss 0 [] (by simp)

/-- Claim C3: after a successful `Merge` the store consists of exactly one
segment file, numbered 0, holding exactly one record per live key (the keys
of the compacted file are precisely the index keys, without duplicates) with
that key's current value, and `Get` returns the same value as before the
merge for every key. -/
theorem claim_c3_merge_postcondition (S : Nat) (ps : List Rec) (db0 : Db)
    (hopen : newDb [] S = .ok db0) (hsz : ∀ r ∈ ps, sizeOk r.1 r.2) :
    ∃ (db2 : Db) (recs : List Rec),
      Merge (runPuts db0 ps) = .ok db2 ∧
      db2.segmentIndex = 0 ∧
      db2.files = [concatRecords recs] ∧
      recs.map Prod.fst = (runPuts db0 ps).index.map Prod.fst ∧
      (recs.map Prod.fst).Nodup ∧
      (∀ r ∈ recs, getDb (runPuts db0 ps) r.1 = .ok r.2) ∧
      (∀ k, Get db2 k = Get (runPuts db0 ps) k) := by
  have hdb0 : db0 = freshDb S := by
    rw [newDb_nil] at hopen
    exact (Except.ok.inj hopen).symm
  subst hdb0
  obtain ⟨_, rss2, hinv2, _, _⟩ := runPuts_INV ps (freshDb S) [[]] (freshDb_INV S) hsz
  obtain ⟨recs, hmerge, hkeys, hrecs, hget⟩ := merge_INV (runPuts (freshDb S) ps) rss2 hinv2
  refine ⟨_, recs, hmerge, rfl, rfl, hkeys, ?_, fun r hr => (hrecs r hr).1, hget⟩
  rw [hkeys]
  exact INV_index_nodup (runPuts (freshDb S) ps) rss2 hinv2

theorem claim_c3_merge_postcondition_witness :
    ∃ (db2 : Db) (recs : List Rec),
      Merge (runPuts (freshDb 1024) [([1], [2]), ([3], [4])]) = .ok db2 ∧
      db2.segmentIndex = 0 ∧
      db2.files = [concatRecords recs] ∧
      (∀ k, Get db2 k = Get (runPuts (freshDb 1024) [([1], [2]), ([3], [4])]) k) := by
  obtain ⟨db2, recs, h1, h2, h3, _, _, _, h7⟩ :=
    claim_c3_merge_postcondition 1024 [([1], [2]), ([3], [4])] (freshDb 1024)
      (newDb_nil 1024) (by decide)
  exact ⟨db2, recs, h1, h2, h3, h7⟩


/-! ### Claim C2 (durability across reopen) -/

theorem Close_files (db : Db) : (Close db).1.files = db.files := by
  rw [Close]
  by_cases h : db.isClosed = true
  · rw [if_pos h]
  · rw [if_neg h]

theorem getDb_congr (a b : Db) (h1 : a.isClosed = b.isClosed) (h2 : a.index = b.index)
    (h3 : a.files = b.files) (k : Bytes) : getDb a k = getDb b k := by
  rw [getDb, getDb, h1, h2, h3]

theorem Get_congr (a b : Db) (h0 : a.wqClosed = b.wqClosed) (h1 : a.isClosed = b.isClosed)
    (h2 : a.index = b.index) (h3 : a.files = b.files) (k : Bytes) : Get a k = Get b k := by
  rw [Get, Get, h0, getDb_congr a b h1 h2 h3]

/-- Claim C2, amended: after `Close` and `NewDb` on the same directory,
recovery replays the segments in ascending id order and rebuilds exactly the
same index, so `Get` returns the same value as before the close for every
key — provided every record's total encoded size fits the 8192-byte recovery
buffer (see the counterexample for larger records). -/
theorem claim_c2_durability_after_reopen (S : Nat) (ps : List Rec) (db0 : Db)
    (hopen : newDb [] S = .ok db0)
    (hsz : ∀ r ∈ ps, sizeOk r.1 r.2)
    (hsmall : ∀ r ∈ ps, recSize r ≤ recoverbufferSize)
    (hcount : ps.length < 2 ^ 63) :
    ∃ db2, newDb (dirOf (Close (runPuts db0 ps)).1.files) S = .ok db2 ∧
      ∀ k, Get db2 k = Get (runPuts db0 ps) k := by
  have hdb0 : db0 = freshDb S := by
    rw [newDb_nil] at hopen
    exact (Except.ok.inj hopen).symm
  subst hdb0
  obtain ⟨_, rss2, hinv2, hflat2, hlen2⟩ :=
    runPuts_INV ps (freshDb S) [[]] (freshDb_INV S) hsz
  have hne : rss2 ≠ [] := by
    intro h
    have := hinv2.hlen
    rw [h] at this
    simp at this
  have hflat3 : rss2.flatten = ps := by
    rw [hflat2]
    simp
  rw [Close_files, hinv2.hfiles]
  rw [newDb_dirOf_ok rss2 S hne (by simp only [List.length_singleton] at hlen2; omega)
    (by
      intro r hr
      rw [hflat3] at hr
      exact ⟨hsz r hr, hsmall r hr⟩)]
  refine ⟨_, rfl, ?_⟩
  intro k
  exact Get_congr _ _ hinv2.hwq.symm hinv2.hopen.symm hinv2.hidx.symm hinv2.hfiles.symm k

theorem claim_c2_durability_after_reopen_witness :
    ∃ db2, newDb (dirOf (Close (runPuts (freshDb 1024) [([1], [2])])).1.files) 1024 =
        .ok db2 ∧
      ∀ k, Get db2 k = Get (runPuts (freshDb 1024) [([1], [2])]) k :=
  claim_c2_durability_after_reopen 1024 [([1], [2])] (freshDb 1024) (newDb_nil 1024)
    (by decide) (by decide) (by norm_num)

/-- Counterexample to claim C2 as stated: a record may have any encodable
size, but recovery cannot replay records larger than its 8192-byte buffer.
Here a single successful `Put` writes a record of total size 8194 bytes; the
reopen of the resulting directory fails with the "corrupted file" error, so no
`Get` after reopen can return the value written before the close. -/
theorem claim_c2_counterexample :
    sizeOk [1] (List.replicate 8181 7) ∧
    runPutsOk (freshDb 100000) [([1], List.replicate 8181 7)] = true ∧
    newDb (dirOf (Close (runPuts (freshDb 100000)
        [([1], List.replicate 8181 7)])).1.files) 100000 =
      .error .corruptedFile := by
  have hsz : sizeOk [1] (List.replicate 8181 7) := by
    unfold sizeOk
    simp only [List.length_cons, List.length_nil, List.length_replicate]
    norm_num
  have hszall : ∀ r ∈ [([1], List.replicate 8181 7)], sizeOk r.1 r.2 := by
    intro r hr
    rw [List.mem_singleton] at hr
    subst hr
    exact hsz
  obtain ⟨hok, rss2, hinv2, hflat2, hlen2⟩ :=
    runPuts_INV [([1], List.replicate 8181 7)] (freshDb 100000) [[]]
      (freshDb_INV 100000) hszall
  have hflat3 : rss2.flatten = [([1], List.replicate 8181 7)] := by
    rw [hflat2]
    simp only [List.flatten_cons, List.flatten_nil, List.append_nil, List.nil_append]
  refine ⟨hsz, hok, ?_⟩
  rw [Close_files, hinv2.hfiles]
  refine newDb_dirOf_big rss2 100000
    (by simp only [List.length_singleton, List.length_cons, List.length_nil] at hlen2; omega)
    (by
      intro r hr
      rw [hflat3, List.mem_singleton] at hr
      subst hr
      exact hsz) ?_
  refine ⟨([1], List.replicate 8181 7), by rw [hflat3]; exact List.mem_singleton.mpr rfl, ?_⟩
  unfold recoverbufferSize recSize
  simp only [List.length_cons, List.length_nil, List.length_replicate]
  norm_num


theorem claim_c7_close_semantics_witness :
    Close ((Close (freshDb 1024)).1) = ((Close (freshDb 1024)).1, none) ∧
    Put ((Close (freshDb 1024)).1) [1] [2] false = ((Close (freshDb 1024)).1, some .dbClosed) ∧
    (∃ e, Get ((Close (freshDb 1024)).1) [1] = .error e ∧ e.closedKind = true) ∧
    Merge ((Close (freshDb 1024)).1) = .error .dbClosed := by
  obtain ⟨h1, h2, _, h4, h5⟩ := claim_c7_close_semantics (freshDb 1024) [1] [2] false
  exact ⟨h1, h2, h4, h5⟩

end Datastore
